import Mathlib

/-!
Verification of the torrent-client core (bencode codec, metainfo loading,
piece store, file persistence, tracker aggregation, peer wire protocol)
against its natural-language specification.  The TypeScript sources are
shallowly embedded: buffers are byte lists (`List Nat`, each entry a byte
value), JavaScript numbers on the integer paths are modelled as `Int`/`Nat`,
`Map`/object state is modelled by association lists in insertion order, and
every fallible operation returns `Except String` mirroring thrown errors.
-/

set_option maxRecDepth 50000

namespace TClient

/-- Bytes of a string literal (ASCII fixtures used by the concrete tests). -/
def strBytes (s : String) : List Nat := s.toList.map Char.toNat

/-- Big-endian bytes of a number, `k` bytes wide (used for SHA-1 lengths and
wire-format 32-bit fields). -/
def beBytes : Nat → Nat → List Nat
  | 0, _ => []
  | k + 1, n => (n / 2 ^ (8 * k)) % 256 :: beBytes k n

/-! ## SHA-1 (utils/crypto.ts: CryptoUtils.sha1 via node crypto)

A bit-exact executable SHA-1 over byte lists, used by `verifyHash` and
`calculateInfoHash`.  32-bit words are `Nat` values reduced mod `2 ^ 32`.  -/

/-- Left-rotation of a 32-bit word (input assumed `< 2 ^ 32`). -/
def rotl (n x : Nat) : Nat := (x * 2 ^ n + x / 2 ^ (32 - n)) % 4294967296

/-- SHA-1 round function, selected by round index. -/
def sha1F (i b c d : Nat) : Nat :=
  if i < 20 then (b &&& c) ||| ((4294967295 - b) &&& d)
  else if i < 40 then (b ^^^ c) ^^^ d
  else if i < 60 then ((b &&& c) ||| (b &&& d)) ||| (c &&& d)
  else (b ^^^ c) ^^^ d

/-- SHA-1 round constant, selected by round index. -/
def sha1K (i : Nat) : Nat :=
  if i < 20 then 1518500249
  else if i < 40 then 1859775393
  else if i < 60 then 2400959708
  else 3395469782

/-- Groups padded bytes into big-endian 32-bit words (first arg is fuel). -/
def wordsOf : Nat → List Nat → List Nat
  | 0, _ => []
  | _ + 1, [] => []
  | f + 1, b0 :: b1 :: b2 :: b3 :: rest =>
      (((b0 * 256 + b1) * 256 + b2) * 256 + b3) :: wordsOf f rest
  | _ + 1, _ => []

/-- Extends the 16 message words to 80 words (first arg counts the
remaining extension steps). -/
def extendW : Nat → List Nat → List Nat
  | 0, w => w
  | f + 1, w =>
      let t := w.length
      extendW f (w ++ [rotl 1 (((w.getD (t - 3) 0) ^^^ (w.getD (t - 8) 0)) ^^^
        ((w.getD (t - 14) 0) ^^^ (w.getD (t - 16) 0)))])

/-- The 80 compression rounds over the extended words. -/
def sha1Rounds : Nat → List Nat → Nat × Nat × Nat × Nat × Nat → Nat × Nat × Nat × Nat × Nat
  | _, [], st => st
  | i, wi :: ws, (a, b, c, d, e) =>
      let temp := ((((rotl 5 a + sha1F i b c d) + e) + sha1K i) + wi) % 4294967296
      sha1Rounds (i + 1) ws (temp, a, rotl 30 b, c, d)

/-- Processes one 64-byte chunk into the running state. -/
def sha1Chunk (h : Nat × Nat × Nat × Nat × Nat) (chunk : List Nat) :
    Nat × Nat × Nat × Nat × Nat :=
  let w := extendW 64 (wordsOf (chunk.length + 1) chunk)
  let r := sha1Rounds 0 w h
  ((h.1 + r.1) % 4294967296, (h.2.1 + r.2.1) % 4294967296,
   (h.2.2.1 + r.2.2.1) % 4294967296, (h.2.2.2.1 + r.2.2.2.1) % 4294967296,
   (h.2.2.2.2 + r.2.2.2.2) % 4294967296)

/-- Standard SHA-1 padding: `0x80`, zeros to 56 mod 64, 8-byte bit length. -/
def sha1Pad (msg : List Nat) : List Nat :=
  let L := msg.length
  msg ++ 128 :: List.replicate ((119 - L % 64) % 64) 0 ++ beBytes 8 (8 * L)

/-- Splits a padded message into 64-byte chunks (first arg is fuel). -/
def chunks64 : Nat → List Nat → List (List Nat)
  | 0, _ => []
  | _ + 1, [] => []
  | f + 1, l => l.take 64 :: chunks64 f (l.drop 64)

/-- SHA-1 digest: 20 bytes. -/
def sha1 (msg : List Nat) : List Nat :=
  let padded := sha1Pad msg
  let h := (chunks64 (padded.length + 1) padded).foldl sha1Chunk
    (1732584193, 4023233417, 2562383102, 271733878, 3285377520)
  (((beBytes 4 h.1 ++ beBytes 4 h.2.1) ++ beBytes 4 h.2.2.1) ++
    beBytes 4 h.2.2.2.1) ++ beBytes 4 h.2.2.2.2

/-! ## Decimal digit strings and JavaScript parseInt -/

/-- Decimal digit bytes of a natural number, most significant first
(first arg is fuel; models the digits produced by JS number-to-string on
integers). -/
def natDigitsGo : Nat → Nat → List Nat
  | 0, _ => []
  | f + 1, n => if n < 10 then [48 + n] else natDigitsGo f (n / 10) ++ [48 + n % 10]

/-- Decimal digit bytes of a natural number. -/
def natRepr (n : Nat) : List Nat := natDigitsGo (n + 1) n

/-- Decimal representation bytes of an integer, matching JS template
interpolation of an integral number (note `-0` prints as "0"). -/
def intRepr (i : Int) : List Nat :=
  if i < 0 then 45 :: natRepr i.natAbs else natRepr i.toNat

/-- Is this byte an ASCII decimal digit? -/
def isDigitB (c : Nat) : Bool := 48 ≤ c && c ≤ 57

/-- Is this byte JS whitespace (the forms relevant to byte strings)? -/
def isSpaceB (c : Nat) : Bool := c == 32 || c == 9 || c == 10 || c == 13 || c == 11 || c == 12

/-- Value of a digit string (most significant first). -/
def digitsToNat (ds : List Nat) : Nat := ds.foldl (fun acc d => acc * 10 + (d - 48)) 0

/-- JavaScript `parseInt(s, 10)`: skip leading whitespace, optional sign,
read leading digits ignoring any trailing garbage; `none` models `NaN`.
JS `-0` collapses to `0` here, as `Int` has a single zero. -/
def jsParseInt (s : List Nat) : Option Int :=
  match s.dropWhile isSpaceB with
  | [] => none
  | c :: rest =>
      if c == 45 then
        let ds := rest.takeWhile isDigitB
        if ds.isEmpty then none else some (-(digitsToNat ds : Int))
      else if c == 43 then
        let ds := rest.takeWhile isDigitB
        if ds.isEmpty then none else some (digitsToNat ds : Int)
      else
        let ds := (c :: rest).takeWhile isDigitB
        if ds.isEmpty then none else some (digitsToNat ds : Int)

/-! ## Bencode values (parsers/bencode.ts)

The decoder produces byte strings as raw buffers, integers as numbers,
lists as arrays and dictionaries as objects in insertion order.  Keys are
modelled by their raw bytes (`keyBuffer.toString()` composed with
`Buffer.from` on re-encoding; invertible on the keys arising here).
The mutual inductive mirrors the `BencodeValue` union. -/

mutual
inductive BValue where
  | str : List Nat → BValue
  | int : Int → BValue
  | list : BList → BValue
  | dict : BDict → BValue
deriving DecidableEq
inductive BList where
  | nil : BList
  | cons : BValue → BList → BList
deriving DecidableEq
inductive BDict where
  | nil : BDict
  | cons : List Nat → BValue → BDict → BDict
deriving DecidableEq
end

/-- Byte-lexicographic order on dictionary keys (the comparison used when
`encodeDictionary` sorts `Object.keys(dict).sort()`). -/
def keyLe : List Nat → List Nat → Bool
  | [], _ => true
  | _ :: _, [] => false
  | a :: as, b :: bs => if a < b then true else if b < a then false else keyLe as bs

/-- Inserts an entry into a key-sorted dictionary, keeping order. -/
def insertD (k : List Nat) (v : BValue) : BDict → BDict
  | .nil => .cons k v .nil
  | .cons k2 v2 tl => if keyLe k k2 then .cons k v (.cons k2 v2 tl)
                      else .cons k2 v2 (insertD k v tl)

/-- Sorts a dictionary by key (insertion sort; `encodeDictionary` emits
entries in sorted key order). -/
def sortD : BDict → BDict
  | .nil => .nil
  | .cons k v tl => insertD k v (sortD tl)

/-- `encodeString`/`encodeBuffer`: length prefix, colon, bytes. -/
def encodeStr (s : List Nat) : List Nat := natRepr s.length ++ 58 :: s

mutual
/-- Emitted bytes of a value whose dictionaries are already in emit order.
`BencodeParser.encode` sorts each dictionary as it emits it and recurses
into the values; sorting touches only the entry order, so the source's
encoder is this plain emitter composed with the recursive key sort
`sortAllV` below (see `bencode`). -/
def emitV : BValue → List Nat
  | .str s => encodeStr s
  | .int n => 105 :: intRepr n ++ [101]
  | .list l => 108 :: emitL l ++ [101]
  | .dict d => 100 :: emitD d ++ [101]
/-- Emitted bytes of the elements of a list. -/
def emitL : BList → List Nat
  | .nil => []
  | .cons v tl => emitV v ++ emitL tl
/-- Emitted bytes of the entries of a dictionary in the given order. -/
def emitD : BDict → List Nat
  | .nil => []
  | .cons k v tl => encodeStr k ++ emitV v ++ emitD tl
end

mutual
/-- Recursively sorts every dictionary of a value by key, the order in
which `BencodeParser.encode` emits dictionary entries. -/
def sortAllV : BValue → BValue
  | .str s => .str s
  | .int n => .int n
  | .list l => .list (sortAllL l)
  | .dict d => .dict (sortD (sortAllD d))
/-- Recursive dictionary sort under each list element. -/
def sortAllL : BList → BList
  | .nil => .nil
  | .cons v tl => .cons (sortAllV v) (sortAllL tl)
/-- Recursive dictionary sort under each entry value. -/
def sortAllD : BDict → BDict
  | .nil => .nil
  | .cons k v tl => .cons k (sortAllV v) (sortAllD tl)
end

/-- `BencodeParser.encode`: emit with every dictionary sorted by key. -/
def bencode (v : BValue) : List Nat := emitV (sortAllV v)

/-- Does the dictionary have this key (JS `key in dict`)? -/
def hasKeyD (d : BDict) (k : List Nat) : Bool :=
  match d with
  | .nil => false
  | .cons k2 _ tl => k == k2 || hasKeyD tl k

/-- JS object assignment `dict[key] = value`: overwrite in place when the
key exists, else append. -/
def setKeyD (d : BDict) (k : List Nat) (v : BValue) : BDict :=
  match d with
  | .nil => .cons k v .nil
  | .cons k2 v2 tl => if k == k2 then .cons k2 v tl else .cons k2 v2 (setKeyD tl k v)

/-! ### The decoder

`BencodeParser.parseValue` and friends, position-passing recursive descent.
The embedding consumes the byte list and returns the remainder; the fuel
argument only bounds the recursion depth, and `bdecode` supplies
`length + 1` fuel, shown sufficient for the inputs of every theorem
below (the source's loop terminates because its position strictly
advances). -/

/-- `parseString`: digits of the length up to the first colon
(`indexOf(58)`), `parseInt` of that prefix, then that many bytes
(JS `slice` clamps at the end of the buffer). -/
def parseStrF (data : List Nat) : Except String (List Nat × List Nat) :=
  let pre := data.takeWhile (fun c => !(c == 58))
  if pre.length == data.length then .error "string missing colon"
  else
    match jsParseInt pre with
    | none => .error "invalid string length"
    | some len =>
        if len < 0 then .error "invalid string length"
        else
          let after := data.drop (pre.length + 1)
          .ok (after.take len.toNat, after.drop len.toNat)

/-- `parseInteger`: skip the leading i, digits up to the first e
(`indexOf(101)`), `parseInt` of the slice (NaN is the only rejection). -/
def parseIntF (data : List Nat) : Except String (Int × List Nat) :=
  let body := data.tail
  let pre := body.takeWhile (fun c => !(c == 101))
  if pre.length == body.length then .error "integer missing e"
  else
    match jsParseInt pre with
    | none => .error "invalid integer"
    | some n => .ok (n, body.drop (pre.length + 1))

mutual
/-- `parseValue`: dispatch on the byte at the current position. -/
def parseValueF : Nat → List Nat → Except String (BValue × List Nat)
  | 0, _ => .error "out of fuel"
  | f + 1, data =>
      match data with
      | [] => .error "unexpected character"
      | c :: tl =>
          if isDigitB c then
            match parseStrF data with
            | .error e => .error e
            | .ok (s, r) => .ok (.str s, r)
          else if c == 105 then
            match parseIntF data with
            | .error e => .error e
            | .ok (n, r) => .ok (.int n, r)
          else if c == 108 then
            match parseListF f tl with
            | .error e => .error e
            | .ok (l, r) => .ok (.list l, r)
          else if c == 100 then
            match parseDictF f BDict.nil tl with
            | .error e => .error e
            | .ok (d, r) => .ok (.dict d, r)
          else .error "unexpected character"
/-- `parseList`: elements until the closing e; running off the end of the
buffer is the missing-e error. -/
def parseListF : Nat → List Nat → Except String (BList × List Nat)
  | 0, _ => .error "out of fuel"
  | f + 1, data =>
      match data with
      | [] => .error "list missing e"
      | c :: tl =>
          if c == 101 then .ok (.nil, tl)
          else
            match parseValueF f data with
            | .error e => .error e
            | .ok (v, r) =>
                match parseListF f r with
                | .error e => .error e
                | .ok (vs, r2) => .ok (.cons v vs, r2)
/-- `parseDictionary`: key via `parseString`, value via `parseValue`,
accumulated by object assignment, until the closing e. -/
def parseDictF : Nat → BDict → List Nat → Except String (BDict × List Nat)
  | 0, _, _ => .error "out of fuel"
  | f + 1, acc, data =>
      match data with
      | [] => .error "dictionary missing e"
      | c :: _ =>
          if c == 101 then .ok (acc, data.tail)
          else
            match parseStrF data with
            | .error e => .error e
            | .ok (k, r) =>
                match parseValueF f r with
                | .error e => .error e
                | .ok (v, r2) => parseDictF f (setKeyD acc k v) r2
end

/-- `BencodeParser.decode`: parse one value from the start (any trailing
bytes are ignored, as in the source). -/
def bdecode (data : List Nat) : Except String BValue :=
  match parseValueF (data.length + 1) data with
  | .error e => .error e
  | .ok (v, _) => .ok v

end TClient

deriving instance DecidableEq for Except

namespace TClient

/-! ## Piece store (core/piece-manager.ts)

`PieceInfo` and a `PieceManager` state record; methods become state-passing
functions.  The `blocks` JS `Map` is an association list in insertion
order. -/

/-- The processed metadata record consumed by the piece and file managers
(types/torrent_types.ts `TorrentMetadata`, the fields these components
read). -/
structure TorrentMeta where
  pieceCount : Nat
  totalLength : Nat
  pieceLength : Nat
  pieceHashes : List (List Nat)
deriving DecidableEq

/-- core/piece-manager.ts `PieceInfo`. -/
structure PieceInfo where
  index : Nat
  size : Nat
  hash : List Nat
  data : List Nat
  blocks : List (Nat × List Nat)
  totalBlocks : Nat
  receivedBlocks : Nat
  requested : Bool
  completed : Bool
deriving DecidableEq

/-- The mutable state of a `PieceManager`. -/
structure PieceMgr where
  pieces : List PieceInfo
  completedPieces : List Nat
  currentPieceIndex : Nat
  pieceLength : Nat
deriving DecidableEq

/-- `CryptoUtils.verifyHash`: SHA-1 of the data equals the expected hash. -/
def verifyHash (data expected : List Nat) : Bool := sha1 data == expected

/-- `initializePieces`: one `PieceInfo` per piece; the last piece's size is
`totalLength - i * pieceLength`, every other piece has `pieceLength`;
`totalBlocks = ceil(size / 16384)`. -/
def initializePieces (md : TorrentMeta) : List PieceInfo :=
  (List.range md.pieceCount).map (fun i =>
    let size := if i == md.pieceCount - 1 then md.totalLength - i * md.pieceLength
                else md.pieceLength
    { index := i, size := size, hash := md.pieceHashes.getD i [],
      data := List.replicate size 0, blocks := [],
      totalBlocks := (size + 16383) / 16384, receivedBlocks := 0,
      requested := false, completed := false })

/-- The `PieceManager` constructor state. -/
def initPieceMgr (md : TorrentMeta) : PieceMgr :=
  { pieces := initializePieces md, completedPieces := [],
    currentPieceIndex := 0, pieceLength := md.pieceLength }

/-- `getNextPieceToDownload`: looks only at the piece at
`currentPieceIndex`; if it exists and is neither completed nor requested,
marks it requested and returns it, else returns null. -/
def getNextPieceToDownload (pm : PieceMgr) : Option PieceInfo × PieceMgr :=
  match pm.pieces[pm.currentPieceIndex]? with
  | some p =>
      if !p.completed && !p.requested then
        let p2 := { p with requested := true }
        (some p2, { pm with pieces := pm.pieces.set pm.currentPieceIndex p2 })
      else (none, pm)
  | none => (none, pm)

/-- `piece.blocks.has(offset)`. -/
def blocksHas (bs : List (Nat × List Nat)) (off : Nat) : Bool := bs.any (fun b => b.1 == off)

/-- `piece.blocks.get(offset)`. -/
def blocksGet (bs : List (Nat × List Nat)) (off : Nat) : Option (List Nat) :=
  (bs.find? (fun b => b.1 == off)).map (fun b => b.2)

/-- Ascending insertion into a sorted offset list. -/
def insertOffset (x : Nat) : List Nat → List Nat
  | [] => [x]
  | y :: tl => if x ≤ y then x :: y :: tl else y :: insertOffset x tl

/-- Numeric ascending sort of the block offsets
(`Array.from(piece.blocks.keys()).sort((a, b) => a - b)`). -/
def sortOffsets (bs : List (Nat × List Nat)) : List Nat :=
  (bs.map (fun b => b.1)).foldr insertOffset []

/-- The assembly loop of `assemblePiece`: walk the sorted offsets keeping
the running expected offset; `none` is the missing-block (contiguity)
early return, `some` carries the concatenated bytes. -/
def assembleLoop (bs : List (Nat × List Nat)) : List Nat → Nat → Option (List Nat)
  | [], _ => some []
  | off :: rest, expected =>
      if off == expected then
        let bd := (blocksGet bs off).getD []
        match assembleLoop bs rest (expected + bd.length) with
        | some tailBytes => some (bd ++ tailBytes)
        | none => none
      else none

/-- `assemblePiece`: sort offsets, check contiguity, check the assembled
size, verify the digest.  Only the digest failure clears the block map,
counter and `requested`; the contiguity and size failures return without
touching the piece.  Success marks `completed`, stores the bytes,
records the index and advances the sequential cursor when it matches.
(The out-of-range branch is unreachable from `addBlockToPiece`.) -/
def assemblePiece (pm : PieceMgr) (pieceIndex : Nat) : Bool × PieceMgr :=
  match pm.pieces[pieceIndex]? with
  | none => (false, pm)
  | some piece =>
      match assembleLoop piece.blocks (sortOffsets piece.blocks) 0 with
      | none => (false, pm)
      | some assembled =>
          if !(assembled.length == piece.size) then (false, pm)
          else if !(verifyHash assembled piece.hash) then
            let p2 := { piece with requested := false, blocks := [], receivedBlocks := 0 }
            (false, { pm with pieces := pm.pieces.set pieceIndex p2 })
          else
            let p2 := { piece with data := assembled, completed := true }
            (true, { pm with
              pieces := pm.pieces.set pieceIndex p2,
              completedPieces :=
                if pm.completedPieces.contains pieceIndex then pm.completedPieces
                else pm.completedPieces ++ [pieceIndex],
              currentPieceIndex :=
                if pieceIndex == pm.currentPieceIndex then pm.currentPieceIndex + 1
                else pm.currentPieceIndex })

/-- `addBlockToPiece`: out-of-range index returns false untouched; a
completed piece swallows the block returning true; an out-of-range block
offset returns false; otherwise insert the block if it is new and, once
`receivedBlocks` reaches `totalBlocks`, assemble. -/
def addBlockToPiece (pm : PieceMgr) (pieceIndex offset : Nat) (blockData : List Nat) :
    Bool × PieceMgr :=
  match pm.pieces[pieceIndex]? with
  | none => (false, pm)
  | some piece =>
      if piece.completed then (true, pm)
      else if piece.size < offset + blockData.length then (false, pm)
      else
        let p2 := if blocksHas piece.blocks offset then piece
                  else { piece with
                           blocks := piece.blocks ++ [(offset, blockData)],
                           receivedBlocks := piece.receivedBlocks + 1 }
        let pm2 := { pm with pieces := pm.pieces.set pieceIndex p2 }
        if p2.totalBlocks ≤ p2.receivedBlocks then assemblePiece pm2 pieceIndex
        else (false, pm2)

/-- `getPieceData`: the assembled bytes of a completed piece, else null. -/
def getPieceData (pm : PieceMgr) (pieceIndex : Nat) : Option (List Nat) :=
  match pm.pieces[pieceIndex]? with
  | some p => if p.completed then some p.data else none
  | none => none

/-- `getPieceInfo`: the piece record, or null when out of range. -/
def getPieceInfo (pm : PieceMgr) (pieceIndex : Nat) : Option PieceInfo :=
  pm.pieces[pieceIndex]?

/-- `resetPieceRequest`: clears `requested`, the block map and the counter
of a piece that exists and is not completed; otherwise does nothing. -/
def resetPieceRequest (pm : PieceMgr) (pieceIndex : Nat) : PieceMgr :=
  match pm.pieces[pieceIndex]? with
  | some p =>
      if !p.completed then
        { pm with
            pieces := pm.pieces.set pieceIndex
              { p with requested := false, blocks := [], receivedBlocks := 0 } }
      else pm
  | none => pm

/-! ## File manager (core/file-manager.ts)

`writePiece` computes its file offset from `calculatePieceSize`, which is
based on `floor(totalLength / pieceCount)`; the write itself is modelled
by the pair (offset, bytes) handed to the positional write. -/

/-- `FileManager.calculatePieceSize`: `floor(totalLength / pieceCount)`
for every piece except the last, which gets the remainder against that
truncated size. -/
def calculatePieceSize (md : TorrentMeta) (pieceIndex : Nat) : Nat :=
  let standardPieceSize := md.totalLength / md.pieceCount
  if pieceIndex == md.pieceCount - 1 then md.totalLength - pieceIndex * standardPieceSize
  else standardPieceSize

/-- The absolute file offset at which `FileManager.writePiece` writes a
piece: `pieceIndex * this.calculatePieceSize(pieceIndex)`. -/
def writePiecePosition (md : TorrentMeta) (pieceIndex : Nat) : Nat :=
  pieceIndex * calculatePieceSize md pieceIndex

/-- The positional write issued by `writePiece`: offset and bytes. -/
def writePiece (md : TorrentMeta) (pieceIndex : Nat) (data : List Nat) :
    Nat × List Nat :=
  (writePiecePosition md pieceIndex, data)

/-! ## Metainfo loading (core/torrent.ts) -/

/-- Does `data.slice(i, i + 6)` equal the bytes of "4:info"? -/
def matchInfoAt (data : List Nat) (i : Nat) : Bool :=
  (data.drop i).take 6 == [52, 58, 105, 110, 102, 111]

/-- The byte-search loop of `extractRawInfoDict` (first arg counts the
remaining loop iterations, second is the current index). -/
def findInfoGo : Nat → Nat → List Nat → Option Nat
  | 0, _, _ => none
  | f + 1, i, data => if matchInfoAt data i then some (i + 6) else findInfoGo f (i + 1) data

/-- Position after the first occurrence of "4:info" in the buffer.  The
source iterates `i` up to `length - 7` (the pattern constant is the
7-byte "4:infod" although only 6 bytes are compared). -/
def findInfoStart (data : List Nat) : Option Nat :=
  if data.length < 7 then none
  else findInfoGo (data.length - 7 + 1) 0 data

/-- `TorrentParser.extractRawInfoDict`: locate "4:info", parse a value
from just past it, and re-encode the parsed value. -/
def extractRawInfoDict (torrentBuffer : List Nat) : Except String (List Nat) :=
  match findInfoStart torrentBuffer with
  | none => .error "info dictionary not found"
  | some start =>
      let sub := torrentBuffer.drop start
      match parseValueF (sub.length + 1) sub with
      | .error e => .error e
      | .ok (v, _) => .ok (bencode v)

/-- First value under a key of a decoded dictionary (unique keys as
produced by the decoder). -/
def lookupD (d : BDict) (k : List Nat) : Option BValue :=
  match d with
  | .nil => none
  | .cons k2 v tl => if k == k2 then some v else lookupD tl k

/-- `validateTorrentData` together with the total-length requirement of
`extractMetadata`, as a boolean well-formedness check on the raw
metainfo bytes: the buffer decodes to a dictionary carrying a usable
announce URL (or a first announce-list entry), and an `info` dictionary
with a non-empty `name`, a truthy numeric `piece length`, a `pieces`
buffer whose length is a multiple of 20, and a truthy single-file
`length`. -/
def isValidMetainfo (data : List Nat) : Bool :=
  match bdecode data with
  | .error _ => false
  | .ok (.dict top) =>
      (match lookupD top (strBytes "announce") with
       | some (.str s) => !s.isEmpty
       | _ =>
         match lookupD top (strBytes "announce-list") with
         | some (.list (.cons (.list (.cons (.str s) _)) _)) => !s.isEmpty
         | _ => false) &&
      (match lookupD top (strBytes "info") with
       | some (.dict info) =>
           (match lookupD info (strBytes "name") with
            | some (.str s) => !s.isEmpty
            | _ => false) &&
           (match lookupD info (strBytes "piece length") with
            | some (.int n) => !(n == 0)
            | _ => false) &&
           (match lookupD info (strBytes "pieces") with
            | some (.str p) => p.length % 20 == 0
            | _ => false) &&
           (match lookupD info (strBytes "length") with
            | some (.int n) => !(n == 0)
            | _ => false)
       | _ => false)
  | .ok _ => false

/-! ## Tracker aggregation (network/tracker.ts)

`getPeers` maps every announce URL to a tracker attempt whose network
outcome we take as a parameter (`Except` mirroring the per-tracker
try/catch), collects the fulfilled peer lists, deduplicates peers by
their `ip:port` string key keeping first occurrences, and throws when
the union is empty. -/

/-- A peer endpoint as handled by the tracker client (`ip` is the
string). -/
structure PeerAddr where
  ip : List Nat
  port : Nat
deriving DecidableEq

/-- The map key of `uniquePeers`: the `ip:port` template string. -/
def peerKey (p : PeerAddr) : List Nat := p.ip ++ 58 :: natRepr p.port

/-- The peer list a single tracker attempt contributes: its response on
success, the empty list when its promise rejected (the per-URL catch). -/
def attemptPeers (outcome : Except String (List PeerAddr)) : List PeerAddr :=
  match outcome with
  | .ok ps => ps
  | .error _ => []

/-- First-occurrence deduplication by `peerKey` (the `uniquePeers` map;
second argument accumulates the keys already seen). -/
def dedupePeers : List PeerAddr → List (List Nat) → List PeerAddr
  | [], _ => []
  | p :: rest, seen =>
      if seen.contains (peerKey p) then dedupePeers rest seen
      else p :: dedupePeers rest (peerKey p :: seen)

/-- `TrackerClient.getPeers` over the outcomes of the per-URL attempts
(one entry per URL of `announceList`, in order): union the fulfilled
responses, deduplicate, and throw when no peers were obtained. -/
def getPeers (outcomes : List (Except String (List PeerAddr))) :
    Except String (List PeerAddr) :=
  let uniq := dedupePeers ((outcomes.map attemptPeers).flatten) []
  if uniq.isEmpty then .error "no peers obtained from any tracker"
  else .ok uniq

/-! ## Peer wire protocol (network/peer.ts)

The per-peer state machine: the four-byte length prefix framing via
`createMessage`, the block-request loop of `requestPiece` (guarded by the
`choked` flag), and the message handlers that update `choked`.  The
socket's outgoing byte frames are accumulated in `sent`. -/

/-- `BufferUtils.writeUInt32BE`. -/
def be32 (n : Nat) : List Nat := beBytes 4 n

/-- `createMessage`: length prefix (payload length + 1), id byte,
payload. -/
def createMessage (msgType : Nat) (payload : List Nat) : List Nat :=
  be32 (payload.length + 1) ++ msgType :: payload

/-- The state of one peer session that the wire-level claims read. -/
structure PeerSt where
  choked : Bool
  interested : Bool
  connected : Bool
  sent : List (List Nat)
deriving DecidableEq

/-- A fresh peer record (index.ts creates peers with `choked: true,
interested: false`) before its socket is connected. -/
def initPeerSt : PeerSt := { choked := true, interested := false, connected := false, sent := [] }

/-- `sendData`: writes only while the socket is connected. -/
def sendData (s : PeerSt) (frame : List Nat) : PeerSt :=
  if s.connected then { s with sent := s.sent ++ [frame] } else s

/-- The `request` frames of `requestPiece`: 16384-byte blocks, the last
one shorter (first arg is fuel bounding the loop, at least the number of
blocks since each iteration advances the offset). -/
def requestBlocksGo : Nat → Nat → Nat → Nat → List (List Nat)
  | 0, _, _, _ => []
  | f + 1, pieceIndex, offset, pieceLength =>
      if offset < pieceLength then
        let blockSize := min 16384 (pieceLength - offset)
        createMessage 6 ((be32 pieceIndex ++ be32 offset) ++ be32 blockSize) ::
          requestBlocksGo f pieceIndex (offset + blockSize) pieceLength
      else []

/-- `PeerClient.requestPiece`: refused outright while `choked`; otherwise
every block request of the piece is written in order. -/
def requestPiece (s : PeerSt) (pieceIndex pieceLength : Nat) : PeerSt :=
  if s.choked then s
  else (requestBlocksGo pieceLength pieceIndex 0 pieceLength).foldl sendData s

/-- `sendInterested` (sent right after the handshake completes). -/
def sendInterested (s : PeerSt) : PeerSt :=
  { sendData s (createMessage 2 []) with interested := true }

/-- `sendKeepAlive`: a zero-length frame. -/
def sendKeepAlive (s : PeerSt) : PeerSt := sendData s (be32 0)

/-- The steps of one peer session that touch the choke flag or the
socket: the choke/unchoke handlers of `handleMessage`, connecting and
disconnecting, the post-handshake interested message, keep-alives, and
`requestPiece` for arbitrary arguments. -/
inductive PeerStep : PeerSt → PeerSt → Prop where
  | recvChoke (s : PeerSt) : PeerStep s { s with choked := true }
  | recvUnchoke (s : PeerSt) : PeerStep s { s with choked := false }
  | connect (s : PeerSt) : PeerStep s { s with connected := true }
  | disconnect (s : PeerSt) : PeerStep s { s with connected := false }
  | interested (s : PeerSt) : PeerStep s (sendInterested s)
  | keepAlive (s : PeerSt) : PeerStep s (sendKeepAlive s)
  | request (s : PeerSt) (pieceIndex pieceLength : Nat) :
      PeerStep s (requestPiece s pieceIndex pieceLength)

/-- States of a peer session reachable from the fresh state. -/
inductive PeerReachable : PeerSt → Prop where
  | init : PeerReachable initPeerSt
  | step {s t : PeerSt} : PeerReachable s → PeerStep s t → PeerReachable t

/-- Is this frame a `request` message (id byte 6 after the length
prefix)? -/
def isRequestFrame (frame : List Nat) : Bool := frame.getD 4 0 == 6

/-- How many `request` frames a transcript contains. -/
def requestCount (frames : List (List Nat)) : Nat :=
  (frames.filter isRequestFrame).length

/-! ## Auxiliary measures and predicates on bencode values -/

mutual
/-- Recursion-depth measure used as parser fuel bound. -/
def sizeV : BValue → Nat
  | .str _ => 1
  | .int _ => 1
  | .list l => 1 + sizeL l
  | .dict d => 1 + sizeD d
/-- Depth measure of a list tail. -/
def sizeL : BList → Nat
  | .nil => 1
  | .cons v tl => 1 + max (sizeV v) (sizeL tl)
/-- Depth measure of dictionary entries. -/
def sizeD : BDict → Nat
  | .nil => 1
  | .cons _ v tl => 1 + max (sizeV v) (sizeD tl)
end

mutual
/-- Every dictionary of the value has pairwise distinct keys; this holds
of every value the decoder produces (JS object keys are unique). -/
def nodupV : BValue → Bool
  | .str _ => true
  | .int _ => true
  | .list l => nodupL l
  | .dict d => nodupD d
/-- Key uniqueness under each element. -/
def nodupL : BList → Bool
  | .nil => true
  | .cons v tl => nodupV v && nodupL tl
/-- Key uniqueness of the entries and under each value. -/
def nodupD : BDict → Bool
  | .nil => true
  | .cons k v tl => !(hasKeyD tl k) && (nodupV v && nodupD tl)
end

/-- No key of the second dictionary occurs in the first. -/
def freshD (acc : BDict) : BDict → Bool
  | .nil => true
  | .cons k _ tl => !(hasKeyD acc k) && freshD acc tl

/-- Dictionary concatenation (entry lists appended in order). -/
def concatD : BDict → BDict → BDict
  | .nil, e => e
  | .cons k v tl, e => .cons k v (concatD tl e)

/-- Are the entries in ascending key order? -/
def sortedD : BDict → Bool
  | .nil => true
  | .cons _ _ .nil => true
  | .cons k _ (.cons k2 v2 tl) => keyLe k k2 && sortedD (.cons k2 v2 tl)

/-- Structural equality in the JS `deepStrictEqual` sense relevant here:
equality of every component with dictionaries compared as key-value maps
(insertion order ignored), realised by comparing the key-sorted forms. -/
def structEq (a b : BValue) : Bool := sortAllV a == sortAllV b

/-! ## Concrete fixtures used by the claim theorems -/

/-- One piece of one byte whose expected digest is the digest the block
will actually have. -/
def mdC1 : TorrentMeta := ⟨1, 1, 1, [sha1 [0]]⟩

/-- The C1 scenario state: the single piece was handed out by the
sequential scheduler, so its `requested` flag is set. -/
def pmC1 : PieceMgr := (getNextPieceToDownload (initPieceMgr mdC1)).2

/-- Two pieces of 16384 bytes nominal piece length and a one-byte last
piece (`2 * 16384 ≥ 16385 > 1 * 16384`). -/
def mdC2 : TorrentMeta := ⟨2, 16385, 16384, [List.replicate 20 0, List.replicate 20 0]⟩

/-- Two one-byte pieces. -/
def mdC4 : TorrentMeta := ⟨2, 2, 1, [List.replicate 20 0, List.replicate 20 0]⟩

/-- The C4 scenario state: piece 0 handed out (requested), piece 1 idle. -/
def pmC4 : PieceMgr := (getNextPieceToDownload (initPieceMgr mdC4)).2

/-- One piece of two bytes (one block). -/
def mdC5 : TorrentMeta := ⟨1, 2, 2, [List.replicate 20 0]⟩

/-- The C5 scenario state: the piece handed out, `requested` set. -/
def pmC5 : PieceMgr := (getNextPieceToDownload (initPieceMgr mdC5)).2

/-- A metainfo whose info dictionary is valid but stored with its keys
out of sorted order (`name` before `length`), which bencode permits a
decoder to accept; the loader accepts it. -/
def c3info : List Nat :=
  strBytes "d4:name1:x6:lengthi1e12:piece lengthi1e6:pieces20:aaaaaaaaaaaaaaaaaaaae"

/-- The full metainfo buffer around `c3info` (its `info` value's on-wire
bytes are exactly `c3info`). -/
def c3input : List Nat := strBytes "d8:announce8:http://x4:info" ++ c3info ++ [101]

/-- What the source's re-encoding of the decoded info value produces:
the same entries in sorted key order. -/
def c3reenc : List Nat :=
  strBytes "d6:lengthi1e4:name1:x12:piece lengthi1e6:pieces20:aaaaaaaaaaaaaaaaaaaae"

/-- A fully canonical info dictionary (all keys sorted). -/
def c3binfo : List Nat :=
  strBytes "d6:lengthi1e4:name1:x12:piece lengthi1e6:pieces20:aaaaaaaaaaaaaaaaaaaae"

/-- A fully canonical metainfo (every dictionary sorted, canonical
integers) whose `comment` string contains the decoy bytes "4:info"
before the real `info` key; the byte search of `extractRawInfoDict`
finds the decoy first. -/
def c3binput : List Nat :=
  strBytes "d8:announce8:http://x7:comment15:x4:infod1:a1:be4:info" ++
    c3binfo ++ [101]

/-- The S2 dictionary fixture as a value, for witnesses. -/
def s2dict : BValue :=
  .dict (.cons (strBytes "spam") (.str (strBytes "eggs"))
    (.cons (strBytes "cow") (.str (strBytes "moo")) .nil))

/-- The S2 dictionary as the decoder produces it from its on-wire
(sorted) bytes. -/
def s2sorted : BValue :=
  .dict (.cons (strBytes "cow") (.str (strBytes "moo"))
    (.cons (strBytes "spam") (.str (strBytes "eggs")) .nil))

/-- The single piece of `pmC1` before the block arrives. -/
def pC1pre : PieceInfo :=
  { index := 0, size := 1, hash := sha1 [0], data := [0], blocks := [],
    totalBlocks := 1, receivedBlocks := 0, requested := true, completed := false }

/-- The single piece of `pmC1` after its one block arrived and verified. -/
def pC1post : PieceInfo :=
  { index := 0, size := 1, hash := sha1 [0], data := [0], blocks := [(0, [0])],
    totalBlocks := 1, receivedBlocks := 1, requested := true, completed := true }

/-- Piece 0 of `mdC4` as handed out by the sequential scheduler. -/
def pC4first : PieceInfo :=
  { index := 0, size := 1, hash := List.replicate 20 0, data := [0], blocks := [],
    totalBlocks := 1, receivedBlocks := 0, requested := true, completed := false }

/-- A piece whose block count is reached but whose single block sits at
offset 1, so sorted-offset assembly fails contiguity. -/
def pC5blockedPiece : PieceInfo :=
  { index := 0, size := 2, hash := List.replicate 20 0, data := [0, 0],
    blocks := [(1, [9])], totalBlocks := 1, receivedBlocks := 1,
    requested := true, completed := false }

/-- A manager holding `pC5blockedPiece`. -/
def pmC5blocked : PieceMgr :=
  { pieces := [pC5blockedPiece], completedPieces := [], currentPieceIndex := 0,
    pieceLength := 2 }

/-- A piece whose single block is contiguous but one byte short of the
piece size. -/
def pC5shortPiece : PieceInfo :=
  { index := 0, size := 2, hash := List.replicate 20 0, data := [0, 0],
    blocks := [(0, [9])], totalBlocks := 1, receivedBlocks := 1,
    requested := true, completed := false }

/-- A manager holding `pC5shortPiece`. -/
def pmC5short : PieceMgr :=
  { pieces := [pC5shortPiece], completedPieces := [], currentPieceIndex := 0,
    pieceLength := 2 }

/-- A piece fully assembled to the right size whose digest does not match
its expected hash. -/
def pC5badPiece : PieceInfo :=
  { index := 0, size := 2, hash := List.replicate 20 0, data := [0, 0],
    blocks := [(0, [9, 9])], totalBlocks := 1, receivedBlocks := 1,
    requested := true, completed := false }

/-- A manager holding `pC5badPiece`. -/
def pmC5bad : PieceMgr :=
  { pieces := [pC5badPiece], completedPieces := [], currentPieceIndex := 0,
    pieceLength := 2 }

/-! # Theorems -/

/-- Sanity fixture: the standard SHA-1 test vector for the empty message. -/
theorem sha1_empty_vector :
    sha1 [] = [218, 57, 163, 238, 94, 107, 75, 13, 50, 85, 191, 239, 149, 96,
      24, 144, 175, 216, 7, 9] := by decide

/-- Sanity fixture: the standard SHA-1 test vector for the message "abc". -/
theorem sha1_abc_vector :
    sha1 (strBytes "abc") = [169, 153, 62, 54, 71, 6, 129, 106, 186, 62, 37,
      113, 120, 80, 194, 108, 156, 208, 216, 157] := by decide

/-! ## List scanning helpers -/

theorem takeWhile_all {p : Nat → Bool} :
    ∀ l : List Nat, (∀ x ∈ l, p x = true) → l.takeWhile p = l := by
  intro l h
  induction l with
  | nil => rfl
  | cons a tl ih =>
      have ha := h a (by simp)
      have htl := ih (fun x hx => h x (by simp [hx]))
      simp [List.takeWhile_cons, ha, htl]

theorem takeWhile_append_stop {p : Nat → Bool} (l1 : List Nat) (y : Nat) (l2 : List Nat)
    (h1 : ∀ x ∈ l1, p x = true) (h2 : p y = false) :
    (l1 ++ y :: l2).takeWhile p = l1 := by
  induction l1 with
  | nil => simp [List.takeWhile_cons, h2]
  | cons a tl ih =>
      have ha := h1 a (by simp)
      have htl := ih (fun x hx => h1 x (by simp [hx]))
      simp [List.takeWhile_cons, ha, htl]

/-! ## Decimal digits -/

theorem natDigitsGo_fuel (n : Nat) : ∀ f1 f2, n < f1 → n < f2 →
    natDigitsGo f1 n = natDigitsGo f2 n := by
  induction n using Nat.strong_induction_on with
  | _ n ih =>
      intro f1 f2 h1 h2
      match f1, f2 with
      | g1 + 1, g2 + 1 =>
          simp only [natDigitsGo]
          by_cases hten : n < 10
          · simp [hten]
          · have hdiv : n / 10 < n := Nat.div_lt_self (by omega) (by omega)
            rw [if_neg hten, if_neg hten,
              ih (n / 10) hdiv g1 g2 (by omega) (by omega)]

theorem natRepr_step (n : Nat) :
    natRepr n = if n < 10 then [48 + n] else natRepr (n / 10) ++ [48 + n % 10] := by
  by_cases hten : n < 10
  · simp [natRepr, natDigitsGo, hten]
  · have hdiv : n / 10 < n := Nat.div_lt_self (by omega) (by omega)
    have h1 : natRepr n = natDigitsGo n (n / 10) ++ [48 + n % 10] := by
      simp [natRepr, natDigitsGo, hten]
    rw [h1, if_neg hten, natDigitsGo_fuel (n / 10) n (n / 10 + 1) hdiv (by omega)]
    rfl

theorem natRepr_digits (n : Nat) : ∀ d ∈ natRepr n, isDigitB d = true := by
  induction n using Nat.strong_induction_on with
  | _ n ih =>
      intro d hd
      rw [natRepr_step n] at hd
      by_cases hten : n < 10
      · rw [if_pos hten] at hd
        simp only [List.mem_singleton] at hd
        subst hd
        simp only [isDigitB, Bool.and_eq_true, decide_eq_true_eq]
        omega
      · rw [if_neg hten] at hd
        rcases List.mem_append.1 hd with h | h
        · exact ih (n / 10) (Nat.div_lt_self (by omega) (by omega)) d h
        · simp only [List.mem_singleton] at h
          subst h
          have := Nat.mod_lt n (show 0 < 10 by omega)
          simp only [isDigitB, Bool.and_eq_true, decide_eq_true_eq]
          omega

theorem natRepr_ne_nil (n : Nat) : natRepr n ≠ [] := by
  rw [natRepr_step n]
  by_cases hten : n < 10
  · simp [hten]
  · simp [hten]

theorem digitsToNat_append (a : List Nat) (d : Nat) :
    digitsToNat (a ++ [d]) = 10 * digitsToNat a + (d - 48) := by
  simp [digitsToNat, List.foldl_append, Nat.mul_comm]

theorem digitsToNat_natRepr (n : Nat) : digitsToNat (natRepr n) = n := by
  induction n using Nat.strong_induction_on with
  | _ n ih =>
      rw [natRepr_step n]
      by_cases hten : n < 10
      · simp [hten, digitsToNat]
      · rw [if_neg hten, digitsToNat_append,
          ih (n / 10) (Nat.div_lt_self (by omega) (by omega))]
        omega

theorem digit_facts {d : Nat} (h : isDigitB d = true) :
    isSpaceB d = false ∧ (d == 45) = false ∧ (d == 43) = false ∧
    (d == 58) = false ∧ (d == 101) = false := by
  simp only [isDigitB, Bool.and_eq_true, decide_eq_true_eq] at h
  simp only [isSpaceB, beq_eq_false_iff_ne, ne_eq, Bool.or_eq_false_iff,
    beq_eq_false_iff_ne]
  omega

/-! ## jsParseInt on canonical digit strings -/

theorem jsParseInt_digits (ds : List Nat) (hne : ds ≠ [])
    (hd : ∀ d ∈ ds, isDigitB d = true) :
    jsParseInt ds = some ((digitsToNat ds : Nat) : Int) := by
  match ds, hne with
  | c :: rest, _ =>
      have hc := hd c (by simp)
      have hfacts := digit_facts hc
      have hdrop : (c :: rest).dropWhile isSpaceB = c :: rest := by
        simp [List.dropWhile_cons, hfacts.1]
      simp only [jsParseInt, hdrop, hfacts.2.1, hfacts.2.2.1, Bool.false_eq_true,
        if_false]
      rw [takeWhile_all (c :: rest) hd]
      simp

theorem jsParseInt_natRepr (n : Nat) : jsParseInt (natRepr n) = some (n : Int) := by
  rw [jsParseInt_digits (natRepr n) (natRepr_ne_nil n) (natRepr_digits n),
    digitsToNat_natRepr]

theorem intRepr_digits_or_sign (i : Int) : ∀ d ∈ intRepr i,
    isDigitB d = true ∨ d = 45 := by
  intro d hd
  simp only [intRepr] at hd
  by_cases hneg : i < 0
  · rw [if_pos hneg] at hd
    rcases hd with _ | h
    · right; rfl
    · left; exact natRepr_digits _ d (by assumption)
  · rw [if_neg hneg] at hd
    left; exact natRepr_digits _ d hd

theorem jsParseInt_intRepr (i : Int) : jsParseInt (intRepr i) = some i := by
  by_cases hneg : i < 0
  · simp only [intRepr, if_pos hneg]
    have hdrop : (45 :: natRepr i.natAbs).dropWhile isSpaceB = 45 :: natRepr i.natAbs := by
      simp [List.dropWhile_cons, isSpaceB]
    simp only [jsParseInt, hdrop, beq_self_eq_true, if_true]
    rw [takeWhile_all (natRepr i.natAbs) (natRepr_digits _)]
    have hne := natRepr_ne_nil i.natAbs
    simp only [List.isEmpty_iff, hne, if_false, digitsToNat_natRepr]
    congr 1
    omega
  · simp only [intRepr, if_neg hneg]
    rw [jsParseInt_natRepr]
    congr 1
    omega

/-! ## Token-level roundtrips of the decoder -/

theorem parseStrF_enc (s rest : List Nat) :
    parseStrF (encodeStr s ++ rest) = .ok (s, rest) := by
  have hassoc : encodeStr s ++ rest = natRepr s.length ++ 58 :: (s ++ rest) := by
    simp [encodeStr]
  have hpre : (natRepr s.length ++ 58 :: (s ++ rest)).takeWhile (fun c => !(c == 58)) =
      natRepr s.length := by
    refine takeWhile_append_stop _ _ _ (fun x hx => ?_) (by simp)
    have := digit_facts (natRepr_digits s.length x hx)
    simp [this.2.2.2.1]
  have hlen : ((natRepr s.length).length ==
      (natRepr s.length ++ 58 :: (s ++ rest)).length) = false := by
    simp only [beq_eq_false_iff_ne, ne_eq, List.length_append, List.length_cons]
    omega
  have hafter : (natRepr s.length ++ 58 :: (s ++ rest)).drop ((natRepr s.length).length + 1) =
      s ++ rest := by
    have heq : natRepr s.length ++ 58 :: (s ++ rest) =
        (natRepr s.length ++ [58]) ++ (s ++ rest) := by simp
    have hl : ((natRepr s.length) ++ [58]).length = (natRepr s.length).length + 1 := by
      simp
    rw [heq, ← hl, List.drop_left]
  rw [hassoc]
  simp only [parseStrF, hpre, hlen, Bool.false_eq_true, if_false, jsParseInt_natRepr]
  rw [if_neg (by omega), hafter]
  simp [List.take_left, List.drop_left]

theorem intRepr_not101 (i : Int) : ∀ d ∈ intRepr i, (!(d == 101)) = true := by
  intro d hd
  rcases intRepr_digits_or_sign i d hd with h | h
  · simp [(digit_facts h).2.2.2.2]
  · subst h
    decide

theorem parseIntF_enc (i : Int) (rest : List Nat) :
    parseIntF (105 :: (intRepr i ++ 101 :: rest)) = .ok (i, rest) := by
  have hpre : (intRepr i ++ 101 :: rest).takeWhile (fun c => !(c == 101)) = intRepr i :=
    takeWhile_append_stop _ _ _ (intRepr_not101 i) (by simp)
  have hlen : ((intRepr i).length == (intRepr i ++ 101 :: rest).length) = false := by
    simp only [beq_eq_false_iff_ne, ne_eq, List.length_append, List.length_cons]
    omega
  have hafter : (intRepr i ++ 101 :: rest).drop ((intRepr i).length + 1) = rest := by
    have heq : intRepr i ++ 101 :: rest = (intRepr i ++ [101]) ++ rest := by simp
    have hl : ((intRepr i) ++ [101]).length = (intRepr i).length + 1 := by simp
    rw [heq, ← hl, List.drop_left]
  simp only [parseIntF, List.tail_cons, hpre, hlen, Bool.false_eq_true, if_false,
    jsParseInt_intRepr, hafter]

theorem emitV_head (v : BValue) : ∃ c cs, emitV v = c :: cs ∧ (c == 101) = false := by
  cases v with
  | str s =>
      obtain ⟨c, cs, hc⟩ := List.exists_cons_of_ne_nil (natRepr_ne_nil s.length)
      refine ⟨c, cs ++ 58 :: s, ?_, ?_⟩
      · simp [emitV, encodeStr, hc]
      · have := natRepr_digits s.length c (by rw [hc]; simp)
        exact (digit_facts this).2.2.2.2
  | int n => exact ⟨105, intRepr n ++ [101], by simp [emitV], by decide⟩
  | list l => exact ⟨108, emitL l ++ [101], by simp [emitV], by decide⟩
  | dict d => exact ⟨100, emitD d ++ [101], by simp [emitV], by decide⟩

theorem encodeStr_head (s : List Nat) : ∃ c cs, encodeStr s = c :: cs ∧
    isDigitB c = true ∧ (c == 101) = false := by
  obtain ⟨c, cs, hc⟩ := List.exists_cons_of_ne_nil (natRepr_ne_nil s.length)
  have hd : isDigitB c = true := natRepr_digits s.length c (by rw [hc]; simp)
  exact ⟨c, cs ++ 58 :: s, by simp [encodeStr, hc], hd, (digit_facts hd).2.2.2.2⟩

/-! ## Dictionary accumulation -/

theorem concatD_nilr : ∀ a : BDict, concatD a .nil = a
  | .nil => rfl
  | .cons k v tl => by simp [concatD, concatD_nilr tl]

theorem concatD_single (k : List Nat) (v : BValue) (d : BDict) :
    ∀ a : BDict, concatD (concatD a (.cons k v .nil)) d = concatD a (.cons k v d)
  | .nil => by simp [concatD]
  | .cons k2 v2 tl => by simp [concatD, concatD_single k v d tl]

theorem freshD_nil_acc : ∀ d : BDict, freshD BDict.nil d = true
  | .nil => rfl
  | .cons k v tl => by simp [freshD, hasKeyD, freshD_nil_acc tl]

theorem setKeyD_fresh (k : List Nat) (v : BValue) :
    ∀ acc : BDict, hasKeyD acc k = false → setKeyD acc k v = concatD acc (.cons k v .nil)
  | .nil, _ => rfl
  | .cons k2 v2 tl, h => by
      simp only [hasKeyD, Bool.or_eq_false_iff] at h
      simp [setKeyD, concatD, h.1, setKeyD_fresh k v tl h.2]

theorem hasKeyD_concat_single (k : List Nat) (v : BValue) (q : List Nat) :
    ∀ a : BDict, hasKeyD (concatD a (.cons k v .nil)) q = (hasKeyD a q || (q == k))
  | .nil => by simp [concatD, hasKeyD]
  | .cons k2 v2 tl => by
      simp [concatD, hasKeyD, hasKeyD_concat_single k v q tl, Bool.or_assoc]

theorem freshD_concat_single (acc : BDict) (k : List Nat) (v : BValue) :
    ∀ d : BDict, freshD acc d = true → hasKeyD d k = false →
      freshD (concatD acc (.cons k v .nil)) d = true
  | .nil, _, _ => rfl
  | .cons k2 v2 tl, hf, hk => by
      simp only [freshD, Bool.and_eq_true, Bool.not_eq_true'] at hf
      simp only [hasKeyD, Bool.or_eq_false_iff] at hk
      have hne : (k2 == k) = false := by
        simp only [beq_eq_false_iff_ne, ne_eq] at hk ⊢
        exact fun hh => hk.1 hh.symm
      simp only [freshD, Bool.and_eq_true, Bool.not_eq_true']
      exact ⟨by simp [hasKeyD_concat_single, hf.1, hne],
        freshD_concat_single acc k v tl hf.2 hk.2⟩

/-! ## The decode-encode roundtrip -/

mutual
theorem parseV_emit : ∀ (v : BValue) (rest : List Nat) (f : Nat),
    sizeV v ≤ f → nodupV v = true →
    parseValueF f (emitV v ++ rest) = .ok (v, rest)
  | v, rest, 0, hsize, _ => by cases v <;> simp [sizeV] at hsize
  | v, rest, f + 1, hsize, hnd => by
      cases v with
      | str s =>
          obtain ⟨c, cs, hc, hdig, _⟩ := encodeStr_head s
          have hv : emitV (.str s) = encodeStr s := by simp [emitV]
          have hdata : emitV (.str s) ++ rest = c :: (cs ++ rest) := by
            rw [hv, hc]; simp
          rw [hdata]
          simp only [parseValueF, hdig, if_true]
          rw [show c :: (cs ++ rest) = encodeStr s ++ rest by rw [hc]; simp,
            parseStrF_enc]
      | int n =>
          have hdata : emitV (.int n) ++ rest = 105 :: (intRepr n ++ 101 :: rest) := by
            simp [emitV]
          rw [hdata]
          simp only [parseValueF]
          rw [if_neg (by decide), if_pos (by decide), parseIntF_enc]
      | list l =>
          have hdata : emitV (.list l) ++ rest = 108 :: (emitL l ++ 101 :: rest) := by
            simp [emitV]
          rw [hdata]
          simp only [parseValueF]
          rw [if_neg (by decide), if_neg (by decide), if_pos (by decide)]
          have hl : parseListF f (emitL l ++ 101 :: rest) = .ok (l, rest) := by
            refine parseL_emit l rest f ?_ ?_
            · have : sizeV (.list l) = 1 + sizeL l := by simp [sizeV, sizeL]
              omega
            · simpa [nodupV] using hnd
          simp [hl]
      | dict d =>
          have hdata : emitV (.dict d) ++ rest = 100 :: (emitD d ++ 101 :: rest) := by
            simp [emitV]
          rw [hdata]
          simp only [parseValueF]
          rw [if_neg (by decide), if_neg (by decide), if_neg (by decide),
            if_pos (by decide)]
          have hl : parseDictF f BDict.nil (emitD d ++ 101 :: rest) =
              .ok (concatD .nil d, rest) := by
            refine parseD_emit d .nil rest f ?_ ?_ (freshD_nil_acc d)
            · have : sizeV (.dict d) = 1 + sizeD d := by simp [sizeV, sizeD]
              omega
            · simpa [nodupV] using hnd
          simp [hl, concatD]

theorem parseL_emit : ∀ (l : BList) (rest : List Nat) (f : Nat),
    sizeL l ≤ f → nodupL l = true →
    parseListF f (emitL l ++ 101 :: rest) = .ok (l, rest)
  | l, rest, 0, hsize, _ => by cases l <;> simp [sizeL] at hsize
  | l, rest, f + 1, hsize, hnd => by
      cases l with
      | nil =>
          have hdata : emitL BList.nil ++ 101 :: rest = 101 :: rest := by simp [emitL]
          rw [hdata]
          simp [parseListF]
      | cons v tl =>
          obtain ⟨c, cs, hc, hc101⟩ := emitV_head v
          have hdata : emitL (.cons v tl) ++ 101 :: rest =
              emitV v ++ (emitL tl ++ 101 :: rest) := by simp [emitL]
          have hsv : sizeV v ≤ f := by
            have : sizeL (.cons v tl) = 1 + max (sizeV v) (sizeL tl) := by simp [sizeL]
            omega
          have hst : sizeL tl ≤ f := by
            have : sizeL (.cons v tl) = 1 + max (sizeV v) (sizeL tl) := by simp [sizeL]
            omega
          have hndv : nodupV v = true := by
            simp only [nodupL, Bool.and_eq_true] at hnd
            exact hnd.1
          have hndt : nodupL tl = true := by
            simp only [nodupL, Bool.and_eq_true] at hnd
            exact hnd.2
          rw [hdata, show emitV v ++ (emitL tl ++ 101 :: rest) =
            c :: (cs ++ (emitL tl ++ 101 :: rest)) by rw [hc]; simp]
          simp only [parseListF, hc101, Bool.false_eq_true, if_false]
          rw [show c :: (cs ++ (emitL tl ++ 101 :: rest)) =
            emitV v ++ (emitL tl ++ 101 :: rest) by rw [hc]; simp]
          simp [parseV_emit v (emitL tl ++ 101 :: rest) f hsv hndv,
            parseL_emit tl rest f hst hndt]

theorem parseD_emit : ∀ (d : BDict) (acc : BDict) (rest : List Nat) (f : Nat),
    sizeD d ≤ f → nodupD d = true → freshD acc d = true →
    parseDictF f acc (emitD d ++ 101 :: rest) = .ok (concatD acc d, rest)
  | d, acc, rest, 0, hsize, _, _ => by cases d <;> simp [sizeD] at hsize
  | d, acc, rest, f + 1, hsize, hnd, hfresh => by
      cases d with
      | nil =>
          have hdata : emitD BDict.nil ++ 101 :: rest = 101 :: rest := by simp [emitD]
          rw [hdata]
          simp [parseDictF, concatD_nilr]
      | cons k v tl =>
          obtain ⟨c, cs, hc, hdig, hc101⟩ := encodeStr_head k
          have hdata : emitD (.cons k v tl) ++ 101 :: rest =
              encodeStr k ++ (emitV v ++ (emitD tl ++ 101 :: rest)) := by simp [emitD]
          have hsv : sizeV v ≤ f := by
            have : sizeD (.cons k v tl) = 1 + max (sizeV v) (sizeD tl) := by simp [sizeD]
            omega
          have hst : sizeD tl ≤ f := by
            have : sizeD (.cons k v tl) = 1 + max (sizeV v) (sizeD tl) := by simp [sizeD]
            omega
          have hnds : nodupD (.cons k v tl) = ((!(hasKeyD tl k)) &&
              (nodupV v && nodupD tl)) := by simp [nodupD]
          rw [hnds] at hnd
          simp only [Bool.and_eq_true, Bool.not_eq_true'] at hnd
          have hfr : freshD acc (.cons k v tl) = ((!(hasKeyD acc k)) && freshD acc tl) := by
            simp [freshD]
          rw [hfr] at hfresh
          simp only [Bool.and_eq_true, Bool.not_eq_true'] at hfresh
          rw [hdata, show encodeStr k ++ (emitV v ++ (emitD tl ++ 101 :: rest)) =
            c :: (cs ++ (emitV v ++ (emitD tl ++ 101 :: rest))) by rw [hc]; simp]
          simp only [parseDictF, hc101, Bool.false_eq_true, if_false]
          rw [show c :: (cs ++ (emitV v ++ (emitD tl ++ 101 :: rest))) =
            encodeStr k ++ (emitV v ++ (emitD tl ++ 101 :: rest)) by rw [hc]; simp]
          simp only [parseStrF_enc, parseV_emit v (emitD tl ++ 101 :: rest) f hsv hnd.2.1,
            setKeyD_fresh k v acc hfresh.1]
          rw [parseD_emit tl (concatD acc (.cons k v .nil)) rest f hst hnd.2.2
              (freshD_concat_single acc k v tl hfresh.2 hnd.1),
            concatD_single]
end

/-! ## Key order and the recursive dictionary sort -/

theorem keyLe_refl : ∀ k : List Nat, keyLe k k = true
  | [] => rfl
  | a :: as => by simp [keyLe, keyLe_refl as]

theorem keyLe_total : ∀ a b : List Nat, keyLe a b = true ∨ keyLe b a = true
  | [], _ => Or.inl rfl
  | _ :: _, [] => Or.inr rfl
  | a :: as, b :: bs => by
      by_cases hab : a < b
      · left; simp [keyLe, hab]
      · by_cases hba : b < a
        · right; simp [keyLe, hba]
        · have hr := keyLe_total as bs
          rcases hr with h | h
          · left; simp [keyLe, hab, hba, h]
          · right; simp [keyLe, hab, hba, h]

theorem hasKeyD_insertD (k : List Nat) (v : BValue) (q : List Nat) :
    ∀ d : BDict, hasKeyD (insertD k v d) q = ((q == k) || hasKeyD d q)
  | .nil => by simp [insertD, hasKeyD]
  | .cons k2 v2 tl => by
      by_cases hkl : keyLe k k2 = true
      · simp [insertD, hkl, hasKeyD]
      · simp [insertD, hkl, hasKeyD, hasKeyD_insertD k v q tl, Bool.or_left_comm]

theorem nodupD_insertD (k : List Nat) (v : BValue) :
    ∀ d : BDict, hasKeyD d k = false → nodupV v = true → nodupD d = true →
      nodupD (insertD k v d) = true
  | .nil, _, hv, _ => by simp [insertD, nodupD, hasKeyD, hv]
  | .cons k2 v2 tl, hk, hv, hd => by
      simp only [hasKeyD, Bool.or_eq_false_iff] at hk
      have hd2 : ((!(hasKeyD tl k2)) && (nodupV v2 && nodupD tl)) = true := by
        simpa [nodupD] using hd
      simp only [Bool.and_eq_true, Bool.not_eq_true'] at hd2
      by_cases hkl : keyLe k k2 = true
      · simp [insertD, hkl, nodupD, hasKeyD, hk.1, hk.2, hv, hd2.1, hd2.2.1, hd2.2.2]
      · have hne : (k2 == k) = false := by
          simp only [beq_eq_false_iff_ne, ne_eq] at hk ⊢
          exact fun hh => hk.1 hh.symm
        simp [insertD, hkl, nodupD, hasKeyD_insertD, hne, hd2.1, hd2.2.1,
          nodupD_insertD k v tl hk.2 hv hd2.2.2]

theorem hasKeyD_sortD (q : List Nat) : ∀ d : BDict, hasKeyD (sortD d) q = hasKeyD d q
  | .nil => rfl
  | .cons k v tl => by simp [sortD, hasKeyD_insertD, hasKeyD, hasKeyD_sortD q tl]

theorem nodupD_sortD : ∀ d : BDict, nodupD d = true → nodupD (sortD d) = true
  | .nil, _ => rfl
  | .cons k v tl, hd => by
      have hd2 : ((!(hasKeyD tl k)) && (nodupV v && nodupD tl)) = true := by
        simpa [nodupD] using hd
      simp only [Bool.and_eq_true, Bool.not_eq_true'] at hd2
      have hks : hasKeyD (sortD tl) k = false := by rw [hasKeyD_sortD, hd2.1]
      simpa [sortD] using
        nodupD_insertD k v (sortD tl) hks hd2.2.1 (nodupD_sortD tl hd2.2.2)

theorem sortedD_insertD (k : List Nat) (v : BValue) :
    ∀ d : BDict, sortedD d = true → sortedD (insertD k v d) = true
  | .nil, _ => by simp [insertD, sortedD]
  | .cons k2 v2 .nil, _ => by
      by_cases hkl : keyLe k k2 = true
      · simp [insertD, hkl, sortedD]
      · rcases keyLe_total k k2 with h | h
        · exact absurd h hkl
        · simp [insertD, hkl, sortedD, h]
  | .cons k2 v2 (.cons k3 v3 tl2), hs => by
      have hs23 : keyLe k2 k3 = true ∧ sortedD (.cons k3 v3 tl2) = true := by
        simpa [sortedD, Bool.and_eq_true] using hs
      by_cases hkl : keyLe k k2 = true
      · simp [insertD, hkl, sortedD, hs23.1, hs23.2]
      · have hk2k : keyLe k2 k = true := by
          rcases keyLe_total k k2 with h | h
          · exact absurd h hkl
          · exact h
        by_cases hkl3 : keyLe k k3 = true
        · simp [insertD, hkl, hkl3, sortedD, hk2k, hs23.2]
        · have hrec := sortedD_insertD k v (.cons k3 v3 tl2) hs23.2
          simp only [insertD, hkl3, Bool.false_eq_true, if_false] at hrec
          simp [insertD, hkl, hkl3, sortedD, hs23.1, hrec, hk2k]

theorem sortD_sortedD : ∀ d : BDict, sortedD (sortD d) = true
  | .nil => rfl
  | .cons k v tl => by
      simpa [sortD] using sortedD_insertD k v (sortD tl) (sortD_sortedD tl)

theorem sortedD_tail {k : List Nat} {v : BValue} : ∀ {tl : BDict},
    sortedD (.cons k v tl) = true → sortedD tl = true := by
  intro tl h
  match tl with
  | .nil => rfl
  | .cons k2 v2 tl2 =>
      have h2 : (keyLe k k2 && sortedD (.cons k2 v2 tl2)) = true := by
        simpa [sortedD] using h
      simp only [Bool.and_eq_true] at h2
      exact h2.2

theorem sortD_of_sorted : ∀ d : BDict, sortedD d = true → sortD d = d
  | .nil, _ => rfl
  | .cons k v tl, hs => by
      rw [show sortD (.cons k v tl) = insertD k v (sortD tl) by simp [sortD],
        sortD_of_sorted tl (sortedD_tail hs)]
      match tl with
      | .nil => simp [insertD]
      | .cons k2 v2 tl2 =>
          have hk : keyLe k k2 = true := by
            have h2 : (keyLe k k2 && sortedD (.cons k2 v2 tl2)) = true := by
              simpa [sortedD] using hs
            simp only [Bool.and_eq_true] at h2
            exact h2.1
          simp [insertD, hk]

theorem sortD_idem (d : BDict) : sortD (sortD d) = sortD d :=
  sortD_of_sorted (sortD d) (sortD_sortedD d)

theorem sortAllD_insertD (k : List Nat) (v : BValue) :
    ∀ d : BDict, sortAllD (insertD k v d) = insertD k (sortAllV v) (sortAllD d)
  | .nil => by simp [insertD, sortAllD]
  | .cons k2 v2 tl => by
      by_cases hkl : keyLe k k2 = true
      · simp [insertD, hkl, sortAllD]
      · simp [insertD, hkl, sortAllD, sortAllD_insertD k v tl]

theorem sortAllD_sortD : ∀ d : BDict, sortAllD (sortD d) = sortD (sortAllD d)
  | .nil => rfl
  | .cons k v tl => by
      simp [sortD, sortAllD, sortAllD_insertD, sortAllD_sortD tl]

theorem hasKeyD_sortAllD (q : List Nat) : ∀ d : BDict,
    hasKeyD (sortAllD d) q = hasKeyD d q
  | .nil => rfl
  | .cons k v tl => by simp [sortAllD, hasKeyD, hasKeyD_sortAllD q tl]

mutual
theorem nodupV_sortAllV : ∀ v : BValue, nodupV v = true → nodupV (sortAllV v) = true
  | .str s, _ => by simp [sortAllV, nodupV]
  | .int n, _ => by simp [sortAllV, nodupV]
  | .list l, h => by
      have h1 := nodupL_sortAllL l (by simpa [nodupV] using h)
      simpa [sortAllV, nodupV] using h1
  | .dict d, h => by
      have h1 := nodupD_sortAllD d (by simpa [nodupV] using h)
      have h2 := nodupD_sortD (sortAllD d) h1
      simpa [sortAllV, nodupV] using h2
theorem nodupL_sortAllL : ∀ l : BList, nodupL l = true → nodupL (sortAllL l) = true
  | .nil, _ => by simp [sortAllL, nodupL]
  | .cons v tl, h => by
      have hsplit : (nodupV v && nodupL tl) = true := by simpa [nodupL] using h
      simp only [Bool.and_eq_true] at hsplit
      have h1 := nodupV_sortAllV v hsplit.1
      have h2 := nodupL_sortAllL tl hsplit.2
      simp [sortAllL, nodupL, h1, h2]
theorem nodupD_sortAllD : ∀ d : BDict, nodupD d = true → nodupD (sortAllD d) = true
  | .nil, _ => by simp [sortAllD, nodupD]
  | .cons k v tl, h => by
      have hsplit : ((!(hasKeyD tl k)) && (nodupV v && nodupD tl)) = true := by
        simpa [nodupD] using h
      simp only [Bool.and_eq_true, Bool.not_eq_true'] at hsplit
      have h1 := nodupV_sortAllV v hsplit.2.1
      have h2 := nodupD_sortAllD tl hsplit.2.2
      simp [sortAllD, nodupD, hasKeyD_sortAllD, hsplit.1, h1, h2]
end

mutual
theorem sortAllV_idem : ∀ v : BValue, sortAllV (sortAllV v) = sortAllV v
  | .str s => by simp [sortAllV]
  | .int n => by simp [sortAllV]
  | .list l => by simp [sortAllV, sortAllL_idem l]
  | .dict d => by
      simp only [sortAllV]
      rw [sortAllD_sortD, sortAllD_idem d, sortD_idem]
theorem sortAllL_idem : ∀ l : BList, sortAllL (sortAllL l) = sortAllL l
  | .nil => by simp [sortAllL]
  | .cons v tl => by simp [sortAllL, sortAllV_idem v, sortAllL_idem tl]
theorem sortAllD_idem : ∀ d : BDict, sortAllD (sortAllD d) = sortAllD d
  | .nil => by simp [sortAllD]
  | .cons k v tl => by simp [sortAllD, sortAllV_idem v, sortAllD_idem tl]
end

/-! ## Fuel is covered by the encoded length -/

theorem emitV_length_pos (v : BValue) : 1 ≤ (emitV v).length := by
  obtain ⟨c, cs, hc, _⟩ := emitV_head v
  simp [hc]

mutual
theorem sizeV_le_emit : ∀ v : BValue, sizeV v ≤ (emitV v).length
  | .str s => by
      simp only [sizeV, emitV, encodeStr, List.length_append, List.length_cons]
      omega
  | .int n => by
      simp only [sizeV, emitV, List.length_cons, List.length_append]
      omega
  | .list l => by
      have h := sizeL_le_emit l
      simp only [sizeV, emitV, List.length_cons, List.length_append,
        List.length_singleton]
      omega
  | .dict d => by
      have h := sizeD_le_emit d
      simp only [sizeV, emitV, List.length_cons, List.length_append,
        List.length_singleton]
      omega
theorem sizeL_le_emit : ∀ l : BList, sizeL l ≤ (emitL l).length + 1
  | .nil => by simp [sizeL, emitL]
  | .cons v tl => by
      have h1 := sizeV_le_emit v
      have h2 := sizeL_le_emit tl
      have h3 := emitV_length_pos v
      simp only [sizeL, emitL, List.length_append]
      omega
theorem sizeD_le_emit : ∀ d : BDict, sizeD d ≤ (emitD d).length + 1
  | .nil => by simp [sizeD, emitD]
  | .cons k v tl => by
      have h1 := sizeV_le_emit v
      have h2 := sizeD_le_emit tl
      have h3 : 1 ≤ (encodeStr k).length := by
        simp only [encodeStr, List.length_append, List.length_cons]
        omega
      simp only [sizeD, emitD, List.length_append]
      omega
end

/-- Roundtrip over values with pairwise distinct dictionary keys: decode
of encode succeeds and yields the recursively key-sorted form. -/
theorem bdecode_bencode_of_nodup : ∀ v : BValue, nodupV v = true →
    ∃ w, bdecode (bencode v) = .ok w ∧ structEq w v = true := by
  intro v hnd
  refine ⟨sortAllV v, ?_, ?_⟩
  · have hsz : sizeV (sortAllV v) ≤ (emitV (sortAllV v)).length + 1 :=
      le_trans (sizeV_le_emit (sortAllV v)) (by omega)
    have hparse := parseV_emit (sortAllV v) [] ((emitV (sortAllV v)).length + 1)
      hsz (nodupV_sortAllV v hnd)
    simp only [List.append_nil] at hparse
    simp [bdecode, bencode, hparse]
  · simp [structEq, sortAllV_idem]

/-! ### Every decoded value has pairwise distinct dictionary keys -/

theorem hasKeyD_setKeyD (k : List Nat) (v : BValue) (q : List Nat) :
    ∀ d : BDict, hasKeyD (setKeyD d k v) q = (hasKeyD d q || (q == k))
  | .nil => by simp [setKeyD, hasKeyD]
  | .cons k2 v2 tl => by
      by_cases hk : (k == k2) = true
      · have hk2 : k = k2 := by simpa using hk
        subst hk2
        simp only [setKeyD, beq_self_eq_true, if_true, hasKeyD]
        by_cases hq : (q == k) = true
        · simp [hq]
        · simp [hq]
      · simp only [setKeyD, hk, Bool.false_eq_true, if_false, hasKeyD,
          hasKeyD_setKeyD k v q tl, Bool.or_assoc]

theorem nodupD_setKeyD (k : List Nat) (v : BValue) :
    ∀ d : BDict, nodupD d = true → nodupV v = true → nodupD (setKeyD d k v) = true
  | .nil, _, hv => by simp [setKeyD, nodupD, hasKeyD, hv]
  | .cons k2 v2 tl, hd, hv => by
      have hd2 : ((!(hasKeyD tl k2)) && (nodupV v2 && nodupD tl)) = true := by
        simpa [nodupD] using hd
      simp only [Bool.and_eq_true, Bool.not_eq_true'] at hd2
      by_cases hk : (k == k2) = true
      · have hk2 : k = k2 := by simpa using hk
        subst hk2
        simp [setKeyD, nodupD, hd2.1, hv, hd2.2.2]
      · have hne : (k2 == k) = false := by
          simp only [beq_eq_false_iff_ne, ne_eq] at hk ⊢
          intro hh
          exact (by simpa using hk : k ≠ k2) hh.symm
        simp [setKeyD, hk, nodupD, hasKeyD_setKeyD, hd2.1, hne, hd2.2.1,
          nodupD_setKeyD k v tl hd2.2.2 hv]

mutual
theorem parseV_nodup : ∀ (f : Nat) (data : List Nat) (v : BValue)
    (rest : List Nat), parseValueF f data = .ok (v, rest) → nodupV v = true
  | 0, data, v, rest, h => by simp [parseValueF] at h
  | f + 1, data, v, rest, h => by
      cases data with
      | nil => simp [parseValueF] at h
      | cons c tl =>
          simp only [parseValueF] at h
          split at h
          · -- byte string
            split at h
            · exact absurd h (by simp)
            · simp only [Except.ok.injEq, Prod.mk.injEq] at h
              rw [← h.1]
              simp [nodupV]
          · split at h
            · -- integer
              split at h
              · exact absurd h (by simp)
              · simp only [Except.ok.injEq, Prod.mk.injEq] at h
                rw [← h.1]
                simp [nodupV]
            · split at h
              · -- list
                split at h
                · exact absurd h (by simp)
                · rename_i l r heq
                  simp only [Except.ok.injEq, Prod.mk.injEq] at h
                  rw [← h.1]
                  have hl := parseL_nodup f tl l r heq
                  simpa [nodupV] using hl
              · split at h
                · -- dictionary
                  split at h
                  · exact absurd h (by simp)
                  · rename_i d r heq
                    simp only [Except.ok.injEq, Prod.mk.injEq] at h
                    rw [← h.1]
                    have hd := parseD_nodup f BDict.nil tl d r heq (by simp [nodupD])
                    simpa [nodupV] using hd
                · exact absurd h (by simp)
theorem parseL_nodup : ∀ (f : Nat) (data : List Nat) (l : BList)
    (rest : List Nat), parseListF f data = .ok (l, rest) → nodupL l = true
  | 0, data, l, rest, h => by simp [parseListF] at h
  | f + 1, data, l, rest, h => by
      cases data with
      | nil => simp [parseListF] at h
      | cons c tl =>
          simp only [parseListF] at h
          split at h
          · simp only [Except.ok.injEq, Prod.mk.injEq] at h
            rw [← h.1]
            simp [nodupL]
          · split at h
            · exact absurd h (by simp)
            · rename_i v r heq
              split at h
              · exact absurd h (by simp)
              · rename_i vs r2 heq2
                simp only [Except.ok.injEq, Prod.mk.injEq] at h
                rw [← h.1]
                have h1 := parseV_nodup f (c :: tl) v r heq
                have h2 := parseL_nodup f r vs r2 heq2
                simp [nodupL, h1, h2]
theorem parseD_nodup : ∀ (f : Nat) (acc : BDict) (data : List Nat) (d : BDict)
    (rest : List Nat), parseDictF f acc data = .ok (d, rest) →
    nodupD acc = true → nodupD d = true
  | 0, acc, data, d, rest, h, _ => by simp [parseDictF] at h
  | f + 1, acc, data, d, rest, h, hacc => by
      cases data with
      | nil => simp [parseDictF] at h
      | cons c tl =>
          simp only [parseDictF] at h
          split at h
          · simp only [Except.ok.injEq, Prod.mk.injEq] at h
            rw [← h.1]
            exact hacc
          · split at h
            · exact absurd h (by simp)
            · rename_i k r heq
              split at h
              · exact absurd h (by simp)
              · rename_i v r2 heq2
                have hv := parseV_nodup f r v r2 heq2
                exact parseD_nodup f (setKeyD acc k v) r2 d rest h
                  (nodupD_setKeyD k v acc hacc hv)
end

/-- Every value `BencodeParser.decode` produces has pairwise distinct
keys in each of its dictionaries. -/
theorem bdecode_nodup (data : List Nat) (v : BValue)
    (h : bdecode data = .ok v) : nodupV v = true := by
  simp only [bdecode] at h
  split at h
  · exact absurd h (by simp)
  · rename_i w r heq
    simp only [Except.ok.injEq] at h
    rw [← h]
    exact parseV_nodup (data.length + 1) data w r heq

/-- C7: for every bencode value the decoder can produce from well-formed
input (any successful output of `bdecode`), decoding its encoding
succeeds and yields a value structurally equal to the original, where
dictionaries compare as key-value maps (JS deep equality ignores key
insertion order). -/
theorem claimC7_theorem : ∀ (data : List Nat) (v : BValue),
    bdecode data = .ok v →
    ∃ w, bdecode (bencode v) = .ok w ∧ structEq w v = true := by
  intro data v h
  exact bdecode_bencode_of_nodup v (bdecode_nodup data v h)

/-- C7 witness: the spec's S2 dictionary bytes decode to a value, and the
roundtrip holds for it. -/
theorem claimC7_witness :
    bdecode (strBytes "d3:cow3:moo4:spam4:eggse") = .ok s2sorted ∧
    ∃ w, bdecode (bencode s2sorted) = .ok w ∧ structEq w s2sorted = true :=
  ⟨by decide, claimC7_theorem (strBytes "d3:cow3:moo4:spam4:eggse") s2sorted
    (by decide)⟩

/-! ## Claim C6: integer strictness of the decoder -/

/-- C6: the decoder does not reject `-0` or leading-zero integers: the
claim requires `decode("i-0e")` to fail with a malformed-bencode error,
but it evaluates to the integer 0 (and `decode("i03e")` to 3), because
`parseInteger` validates only `isNaN(parseInt(...))`. -/
theorem claimC6_theorem :
    bdecode (strBytes "i-0e") = .ok (.int 0) ∧
    bdecode (strBytes "i03e") = .ok (.int 3) := by decide

/-! ## Claim C2: persistence offsets -/

/-- C2: `writePiece` computes its offset as
`pieceIndex * calculatePieceSize(pieceIndex)` from
`floor(totalLength / pieceCount)` rather than the metainfo piece length.
At the failing input (2 pieces, `piece length` 16384, total 16385 — the
metainfo invariant holds, last two conjuncts) piece 1 is written at
offset 8193 instead of `1 * piece_length = 16384`. -/
theorem claimC2_theorem :
    writePiece mdC2 1 [7] = (8193, [7]) ∧
    1 * mdC2.pieceLength = 16384 ∧ (8193 : Nat) ≠ 16384 ∧
    mdC2.pieceHashes.length * mdC2.pieceLength ≥ mdC2.totalLength ∧
    mdC2.totalLength > (mdC2.pieceHashes.length - 1) * mdC2.pieceLength := by
  refine ⟨by decide, by decide, by decide, by decide, by decide⟩

/-! ## Claim C3: info-dictionary extraction -/

/-- C3: `extractRawInfoDict` locates "4:info" by byte search and
re-encodes the decoded value, and both steps break the claimed digest
equality on well-formed metainfo inputs.  First family: on a metainfo
whose info dictionary is stored with keys out of sorted order
(`c3input`, accepted by the loader) the re-encoding sorts the keys, so
the extracted bytes — and their SHA-1 digests — differ from the on-wire
bytes of the `info` value (which occupy exactly the `c3info` slice).
Second family: on a fully canonical metainfo whose `comment` string
contains the bytes "4:info" (`c3binput`, also accepted), the byte search
finds the decoy inside the comment, and the extraction returns the
re-encoding of a fragment of the comment instead of the info value
(whose on-wire bytes occupy the `c3binfo` slice), again with a different
digest.  In both cases the computed info hash is not the SHA-1 of the
info value's exact raw bytes. -/
theorem claimC3_theorem :
    (isValidMetainfo c3input = true ∧
      extractRawInfoDict c3input = .ok c3reenc ∧
      (c3input.drop 27).take c3info.length = c3info ∧
      c3reenc ≠ c3info ∧
      sha1 c3reenc ≠ sha1 c3info) ∧
    (isValidMetainfo c3binput = true ∧
      extractRawInfoDict c3binput = .ok (strBytes "d1:a1:be") ∧
      (c3binput.drop 54).take c3binfo.length = c3binfo ∧
      strBytes "d1:a1:be" ≠ c3binfo ∧
      sha1 (strBytes "d1:a1:be") ≠ sha1 c3binfo) := by
  refine ⟨⟨by decide, by decide, by decide, by decide, by decide⟩,
    ⟨by decide, by decide, by decide, by decide, by decide⟩⟩

/-! ## Claim C10: piece-store totality outside the index range -/

/-- C10: every piece-store operation given a piece index at or beyond
`piece_count` is total and leaves the state unchanged: `addBlockToPiece`
returns false, `getPieceInfo` and `getPieceData` return null, and
`resetPieceRequest` does nothing.  (A negative JS index behaves the same
way: the array lookup yields `undefined` and the same guards fire.) -/
theorem claimC10_theorem : ∀ (pm : PieceMgr) (i off : Nat) (bd : List Nat),
    pm.pieces.length ≤ i →
    addBlockToPiece pm i off bd = (false, pm) ∧ getPieceInfo pm i = none ∧
    getPieceData pm i = none ∧ resetPieceRequest pm i = pm := by
  intro pm i off bd hlen
  have hnone : pm.pieces[i]? = none := List.getElem?_eq_none hlen
  exact ⟨by simp [addBlockToPiece, hnone], by simp [getPieceInfo, hnone],
    by simp [getPieceData, hnone], by simp [resetPieceRequest, hnone]⟩

/-- C10 witness: the two-piece manager with index 2. -/
theorem claimC10_witness :
    (initPieceMgr mdC4).pieces.length ≤ 2 ∧
    (addBlockToPiece (initPieceMgr mdC4) 2 0 [7] = (false, initPieceMgr mdC4) ∧
      getPieceInfo (initPieceMgr mdC4) 2 = none ∧
      getPieceData (initPieceMgr mdC4) 2 = none ∧
      resetPieceRequest (initPieceMgr mdC4) 2 = initPieceMgr mdC4) :=
  ⟨by decide, claimC10_theorem (initPieceMgr mdC4) 2 0 [7] (by decide)⟩

/-! ## Claim C1: the completed-and-requested invariant -/

/-- C1 counterexample: in the one-piece scenario whose piece was handed
out by the scheduler (so `requested = true`) and whose digest matches,
`addBlockToPiece` returns success and leaves the piece with
`completed = true` AND `requested = true`: the claimed invariant fails. -/
theorem claimC1_counterexample :
    (addBlockToPiece pmC1 0 0 [0]).1 = true ∧
    ((addBlockToPiece pmC1 0 0 [0]).2.pieces[0]?).map
      (fun p => (p.completed, p.requested)) = some (true, true) := by
  refine ⟨by decide, by decide⟩

/-- C1 amended: successful completion does not clear `requested`; when a
call to `addBlockToPiece` turns a piece from not-completed to completed,
the piece's `requested` flag is exactly what it was before the call (so
`completed ∧ requested` does hold after a verified delivery of a
requested piece; `requested` is cleared only by the digest-failure path
and by `resetPieceRequest`). -/
theorem assemble_keeps_requested (pm : PieceMgr) (i : Nat) (q p2 : PieceInfo)
    (hq : pm.pieces[i]? = some q) (hqc : q.completed = false)
    (hp2 : ((assemblePiece pm i).2.pieces[i]?) = some p2)
    (hp2c : p2.completed = true) : p2.requested = q.requested := by
  have hi : i < pm.pieces.length := by
    by_contra hlt
    rw [List.getElem?_eq_none (by omega)] at hq
    exact Option.noConfusion hq
  simp only [assemblePiece, hq] at hp2
  split at hp2
  · -- contiguity failure: the state is untouched
    dsimp only at hp2
    rw [hq, Option.some.injEq] at hp2
    rw [← hp2, hqc] at hp2c
    exact Bool.noConfusion hp2c
  · split at hp2
    · -- size mismatch: the state is untouched
      dsimp only at hp2
      rw [hq, Option.some.injEq] at hp2
      rw [← hp2, hqc] at hp2c
      exact Bool.noConfusion hp2c
    · split at hp2
      · -- digest failure: completed stays false
        dsimp only at hp2
        simp only [List.getElem?_set_self, hi, Option.some.injEq] at hp2
        rw [← hp2] at hp2c
        simp [hqc] at hp2c
      · -- success: completed is set, requested untouched
        dsimp only at hp2
        simp only [List.getElem?_set_self, hi, Option.some.injEq] at hp2
        rw [← hp2]

theorem claimC1_theorem : ∀ (pm : PieceMgr) (i off : Nat) (bd : List Nat)
    (p p2 : PieceInfo),
    pm.pieces[i]? = some p →
    ((addBlockToPiece pm i off bd).2.pieces[i]?) = some p2 →
    p.completed = false → p2.completed = true →
    p2.requested = p.requested := by
  intro pm i off bd p p2 hp hp2 hpc hp2c
  have hi : i < pm.pieces.length := by
    by_contra hlt
    rw [List.getElem?_eq_none (by omega)] at hp
    exact Option.noConfusion hp
  simp only [addBlockToPiece, hp, hpc, Bool.false_eq_true, if_false] at hp2
  split at hp2
  · -- out-of-range block offset: the state is untouched
    dsimp only at hp2
    rw [hp, Option.some.injEq] at hp2
    rw [← hp2, hpc] at hp2c
    exact Bool.noConfusion hp2c
  · split at hp2
    · -- duplicate block: the stored piece is p itself
      split at hp2
      · -- block count reached: assembly runs on p
        exact assemble_keeps_requested _ i p p2
          (by simp [List.getElem?_set_self, hi]) hpc hp2 hp2c
      · -- count not reached: stored piece is p, not completed
        dsimp only at hp2
        simp only [List.getElem?_set_self, hi, Option.some.injEq] at hp2
        rw [← hp2, hpc] at hp2c
        exact Bool.noConfusion hp2c
    · -- new block inserted: the stored piece only grows its block map
      split at hp2
      · -- block count reached: assembly runs on the grown piece
        have hres := assemble_keeps_requested _ i
          { p with
              blocks := p.blocks ++ [(off, bd)],
              receivedBlocks := p.receivedBlocks + 1,
              completed := false } p2
          (by simp [List.getElem?_set_self, hi]) rfl hp2 hp2c
        exact hres
      · -- count not reached: the grown piece is not completed
        dsimp only at hp2
        simp only [List.getElem?_set_self, hi, Option.some.injEq] at hp2
        rw [← hp2] at hp2c
        simp at hp2c

/-- C1 witness: the amended statement applied to the concrete scenario. -/
theorem claimC1_witness :
    pmC1.pieces[0]? = some pC1pre ∧
    ((addBlockToPiece pmC1 0 0 [0]).2.pieces[0]?) = some pC1post ∧
    pC1pre.completed = false ∧ pC1post.completed = true ∧
    pC1post.requested = pC1pre.requested :=
  ⟨by decide, by decide, by decide, by decide,
    claimC1_theorem pmC1 0 0 [0] pC1pre pC1post (by decide) (by decide)
      (by decide) (by decide)⟩

/-! ## Claim C4: the sequential scheduler -/

/-- C4 counterexample: in the two-piece scenario where piece 0 is
requested (in flight) and piece 1 is neither completed nor requested,
`getNextPieceToDownload` returns null instead of the lowest-indexed idle
piece: it only ever inspects the piece at the sequential cursor. -/
theorem claimC4_counterexample :
    (getNextPieceToDownload pmC4).1 = none ∧
    (pmC4.pieces[1]?).map (fun p => (p.completed, p.requested)) =
      some (false, false) := by
  refine ⟨by decide, by decide⟩

/-- Eta step for `PieceInfo`: clearing an already-clear flag is the
identity. -/
theorem pieceInfo_requested_eta (p : PieceInfo) (h : p.requested = false) :
    { p with requested := false } = p := by
  cases p
  simp only [PieceInfo.mk.injEq]
  simp_all

/-- C4 amended: `getNextPieceToDownload` considers only the piece at
`currentPieceIndex`: when that piece exists and is neither completed nor
requested it is marked requested and returned, and in every other case —
even when a higher-indexed piece is idle — the call returns null and
leaves the state unchanged. -/
theorem claimC4_theorem : ∀ pm : PieceMgr,
    ((getNextPieceToDownload pm).1 = none →
      (getNextPieceToDownload pm).2 = pm ∧
      ∀ p, pm.pieces[pm.currentPieceIndex]? = some p →
        (p.completed || p.requested) = true)
    ∧ (∀ p2, (getNextPieceToDownload pm).1 = some p2 →
        p2.requested = true ∧ p2.completed = false ∧
        pm.pieces[pm.currentPieceIndex]? = some { p2 with requested := false } ∧
        (getNextPieceToDownload pm).2 =
          { pm with pieces := pm.pieces.set pm.currentPieceIndex p2 }) := by
  intro pm
  cases hp : pm.pieces[pm.currentPieceIndex]? with
  | none =>
      constructor
      · intro _
        refine ⟨by simp [getNextPieceToDownload, hp], ?_⟩
        intro p hp2
        exact Option.noConfusion hp2
      · intro p2 h
        simp [getNextPieceToDownload, hp] at h
  | some p =>
      cases hcm : p.completed with
      | true =>
          have hcond : (!p.completed && !p.requested) = false := by simp [hcm]
          constructor
          · intro _
            refine ⟨by simp [getNextPieceToDownload, hp, hcond], ?_⟩
            intro p3 hp3
            have hpp : p = p3 := by injection hp3
            rw [← hpp, hcm]
            rfl
          · intro p2 h
            simp [getNextPieceToDownload, hp, hcond] at h
      | false =>
          cases hrq : p.requested with
          | true =>
              have hcond : (!p.completed && !p.requested) = false := by
                simp [hrq]
              constructor
              · intro _
                refine ⟨by simp [getNextPieceToDownload, hp, hcond], ?_⟩
                intro p3 hp3
                have hpp : p = p3 := by injection hp3
                rw [← hpp, hcm, hrq]
                rfl
              · intro p2 h
                simp [getNextPieceToDownload, hp, hcond] at h
          | false =>
              have hcond : (!p.completed && !p.requested) = true := by
                simp [hcm, hrq]
              constructor
              · intro h
                simp [getNextPieceToDownload, hp, hcond] at h
              · intro p2 h
                simp only [getNextPieceToDownload, hp, hcond, if_true,
                  Option.some.injEq] at h
                subst h
                refine ⟨rfl, by exact hcm, ?_, ?_⟩
                · show some p = some { p with requested := false }
                  rw [pieceInfo_requested_eta p hrq]
                · simp only [getNextPieceToDownload, hp, hcond, if_true]

/-- C4 witness: the amended statement applied on both sides — the
requested-cursor state `pmC4` (null result, state unchanged) and the
fresh state (piece 0 handed out and marked). -/
theorem claimC4_witness :
    (getNextPieceToDownload pmC4).2 = pmC4 ∧
    (pC4first.completed || pC4first.requested) = true ∧
    pC4first.requested = true ∧ pC4first.completed = false ∧
    (initPieceMgr mdC4).pieces[(initPieceMgr mdC4).currentPieceIndex]? =
      some { pC4first with requested := false } ∧
    (getNextPieceToDownload (initPieceMgr mdC4)).2 =
      { initPieceMgr mdC4 with
          pieces := (initPieceMgr mdC4).pieces.set
            (initPieceMgr mdC4).currentPieceIndex pC4first } := by
  have h1 := (claimC4_theorem pmC4).1 (by decide)
  have h2 := h1.2 pC4first (by decide)
  have h3 := (claimC4_theorem (initPieceMgr mdC4)).2 pC4first (by decide)
  exact ⟨h1.1, h2, h3.1, h3.2.1, h3.2.2.1, h3.2.2.2⟩

/-! ## Claim C5: the failure paths of piece assembly -/

/-- C5 counterexample: the final block of the piece (by count) sits at
offset 1, so the contiguity check fails; the claim requires the block
map to be cleared, the counter reset and `requested` cleared, but the
call just returns failure: the block map still holds the block, the
counter is 1 and `requested` is still set. -/
theorem claimC5_counterexample :
    (addBlockToPiece pmC5 0 1 [9]).1 = false ∧
    ((addBlockToPiece pmC5 0 1 [9]).2.pieces[0]?).map
      (fun p => (p.blocks, p.receivedBlocks, p.requested)) =
      some ([(1, [9])], 1, true) := by
  refine ⟨by decide, by decide⟩

/-- C5 amended: of the three failure paths of assembly, only the digest
mismatch clears the block map, resets the counter and clears
`requested`; the contiguity failure and the size mismatch return failure
leaving the piece state exactly as it was after the block was
inserted. -/
theorem claimC5_theorem :
    (∀ (pm : PieceMgr) (i : Nat) (piece : PieceInfo),
      pm.pieces[i]? = some piece →
      assembleLoop piece.blocks (sortOffsets piece.blocks) 0 = none →
      assemblePiece pm i = (false, pm))
    ∧ (∀ (pm : PieceMgr) (i : Nat) (piece : PieceInfo) (a : List Nat),
        pm.pieces[i]? = some piece →
        assembleLoop piece.blocks (sortOffsets piece.blocks) 0 = some a →
        a.length ≠ piece.size →
        assemblePiece pm i = (false, pm))
    ∧ (∀ (pm : PieceMgr) (i : Nat) (piece : PieceInfo) (a : List Nat),
        pm.pieces[i]? = some piece →
        assembleLoop piece.blocks (sortOffsets piece.blocks) 0 = some a →
        a.length = piece.size → verifyHash a piece.hash = false →
        assemblePiece pm i = (false, { pm with
          pieces := pm.pieces.set i { piece with
            requested := false,
            blocks := ([] : List (Nat × List Nat)),
            receivedBlocks := 0 } })) := by
  refine ⟨?_, ?_, ?_⟩
  · intro pm i piece hp hloop
    simp [assemblePiece, hp, hloop]
  · intro pm i piece a hp hloop hlen
    have hbeq : (a.length == piece.size) = false := by
      simp [hlen]
    simp [assemblePiece, hp, hloop, hbeq]
  · intro pm i piece a hp hloop hlen hver
    have hbeq : (a.length == piece.size) = true := by simp [hlen]
    simp [assemblePiece, hp, hloop, hbeq, hver]

/-- C5 witness: the three paths at concrete states — a non-contiguous
block map, a contiguous but short one, and a full assembly with a digest
mismatch. -/
theorem claimC5_witness :
    assemblePiece pmC5blocked 0 = (false, pmC5blocked) ∧
    assemblePiece pmC5short 0 = (false, pmC5short) ∧
    assemblePiece pmC5bad 0 = (false, { pmC5bad with
      pieces := pmC5bad.pieces.set 0 { pC5badPiece with
        requested := false,
        blocks := ([] : List (Nat × List Nat)),
        receivedBlocks := 0 } }) := by
  refine ⟨claimC5_theorem.1 pmC5blocked 0 pC5blockedPiece (by decide) (by decide),
    claimC5_theorem.2.1 pmC5short 0 pC5shortPiece [9] (by decide) (by decide)
      (by decide),
    claimC5_theorem.2.2 pmC5bad 0 pC5badPiece [9, 9] (by decide) (by decide)
      (by decide) (by decide)⟩

/-! ## Claim C8: tracker aggregation -/

/-- C8 counterexample: a single tracker attempt that succeeds but
returns zero peers; not every attempt failed, so the claim forbids the
tracker-unavailable failure, yet `getPeers` throws it. -/
theorem claimC8_counterexample :
    getPeers [Except.ok []] = .error "no peers obtained from any tracker" ∧
    (Except.ok [] : Except String (List PeerAddr)).isOk = true := by
  refine ⟨by decide, by decide⟩

theorem mem_dedupePeers : ∀ (l : List PeerAddr) (seen : List (List Nat))
    (p : PeerAddr), p ∈ dedupePeers l seen → p ∈ l
  | [], _, _, h => by simp [dedupePeers] at h
  | q :: rest, seen, p, h => by
      by_cases hc : seen.contains (peerKey q) = true
      · simp only [dedupePeers, hc, if_true] at h
        exact List.mem_cons_of_mem q (mem_dedupePeers rest seen p h)
      · simp only [dedupePeers, hc, Bool.false_eq_true, if_false] at h
        rcases List.mem_cons.1 h with h1 | h1
        · simp [h1]
        · exact List.mem_cons_of_mem q
            (mem_dedupePeers rest (peerKey q :: seen) p h1)

theorem dedupePeers_key_not_seen : ∀ (l : List PeerAddr) (seen : List (List Nat))
    (p : PeerAddr), p ∈ dedupePeers l seen → peerKey p ∉ seen
  | [], _, _, h => by simp [dedupePeers] at h
  | q :: rest, seen, p, h => by
      by_cases hc : seen.contains (peerKey q) = true
      · simp only [dedupePeers, hc, if_true] at h
        exact dedupePeers_key_not_seen rest seen p h
      · simp only [dedupePeers, hc, Bool.false_eq_true, if_false] at h
        rcases List.mem_cons.1 h with h1 | h1
        · subst h1
          simp at hc
          exact hc
        · have h2 := dedupePeers_key_not_seen rest (peerKey q :: seen) p h1
          intro hmem
          exact h2 (List.mem_cons_of_mem _ hmem)

theorem dedupePeers_keys_nodup : ∀ (l : List PeerAddr) (seen : List (List Nat)),
    ((dedupePeers l seen).map peerKey).Nodup
  | [], _ => by simp [dedupePeers]
  | q :: rest, seen => by
      by_cases hc : seen.contains (peerKey q) = true
      · simp only [dedupePeers, hc, if_true]
        exact dedupePeers_keys_nodup rest seen
      · simp only [dedupePeers, hc, Bool.false_eq_true, if_false, List.map_cons,
          List.nodup_cons]
        refine ⟨?_, dedupePeers_keys_nodup rest (peerKey q :: seen)⟩
        intro hmem
        rcases List.mem_map.1 hmem with ⟨p, hp, hkey⟩
        have h2 := dedupePeers_key_not_seen rest (peerKey q :: seen) p hp
        rw [hkey] at h2
        exact h2 (List.mem_cons_self _ _)

theorem dedupePeers_covers : ∀ (l : List PeerAddr) (seen : List (List Nat))
    (q : PeerAddr), q ∈ l →
    peerKey q ∈ seen ∨ ∃ p, p ∈ dedupePeers l seen ∧ peerKey p = peerKey q
  | [], _, _, h => by simp at h
  | r :: rest, seen, q, h => by
      by_cases hc : seen.contains (peerKey r) = true
      · simp only [dedupePeers, hc, if_true]
        rcases List.mem_cons.1 h with h1 | h1
        · subst h1
          left
          simpa using hc
        · exact dedupePeers_covers rest seen q h1
      · simp only [dedupePeers, hc, Bool.false_eq_true, if_false]
        rcases List.mem_cons.1 h with h1 | h1
        · subst h1
          right
          exact ⟨q, List.mem_cons_self _ _, rfl⟩
        · rcases dedupePeers_covers rest (peerKey r :: seen) q h1 with h2 | ⟨p, hp, hk⟩
          · rcases List.mem_cons.1 h2 with h3 | h3
            · right
              exact ⟨r, List.mem_cons_self _ _, h3.symm⟩
            · left
              exact h3
          · right
            exact ⟨p, List.mem_cons_of_mem _ hp, hk⟩

theorem dedupePeers_nil_iff : ∀ l : List PeerAddr, dedupePeers l [] = [] ↔ l = []
  | [] => by simp [dedupePeers]
  | q :: rest => by
      simp [dedupePeers, List.contains]

theorem flatten_attempts_nil : ∀ outcomes : List (Except String (List PeerAddr)),
    ((outcomes.map attemptPeers).flatten = []) ↔ ∀ o ∈ outcomes, attemptPeers o = [] := by
  intro outcomes
  rw [List.flatten_eq_nil_iff]
  constructor
  · intro h o ho
    exact h (attemptPeers o) (List.mem_map.2 ⟨o, ho, rfl⟩)
  · intro h s hs
    rcases List.mem_map.1 hs with ⟨o, ho, rfl⟩
    exact h o ho

/-- C8 amended: `getPeers` maps every announce URL to a tracker attempt,
collects the fulfilled responses, deduplicates peers by their `ip:port`
key keeping first occurrences, and fails with the tracker-unavailable
error if and only if the union of the returned peer lists is empty —
which happens when every attempt fails but also when all successful
attempts return zero peers. -/
theorem claimC8_theorem : ∀ outcomes : List (Except String (List PeerAddr)),
    ((getPeers outcomes).isOk = false ↔ ∀ o ∈ outcomes, attemptPeers o = []) ∧
    (∀ ps, getPeers outcomes = .ok ps →
      ((ps.map peerKey).Nodup ∧
       (∀ p ∈ ps, ∃ o ∈ outcomes, p ∈ attemptPeers o) ∧
       (∀ o ∈ outcomes, ∀ q ∈ attemptPeers o, ∃ p ∈ ps, peerKey p = peerKey q))) := by
  intro outcomes
  constructor
  · have hkey : (getPeers outcomes).isOk = false ↔
        dedupePeers ((outcomes.map attemptPeers).flatten) [] = [] := by
      simp only [getPeers]
      cases hemp : (dedupePeers ((outcomes.map attemptPeers).flatten) []).isEmpty with
      | true =>
          simp only [if_true, Except.isOk, Except.toBool]
          rw [List.isEmpty_iff] at hemp
          simp [hemp]
      | false =>
          simp only [Bool.false_eq_true, if_false, Except.isOk, Except.toBool]
          have hne : dedupePeers ((outcomes.map attemptPeers).flatten) [] ≠ [] := by
            intro hn
            rw [hn] at hemp
            simp at hemp
          simp [hne]
    rw [hkey, dedupePeers_nil_iff, flatten_attempts_nil]
  · intro ps hps
    have hps2 : ps = dedupePeers ((outcomes.map attemptPeers).flatten) [] := by
      simp only [getPeers] at hps
      cases hemp : (dedupePeers ((outcomes.map attemptPeers).flatten) []).isEmpty with
      | true =>
          rw [hemp] at hps
          simp at hps
      | false =>
          rw [hemp] at hps
          simp only [Bool.false_eq_true, if_false, Except.ok.injEq] at hps
          exact hps.symm
    subst hps2
    refine ⟨dedupePeers_keys_nodup _ _, ?_, ?_⟩
    · intro p hp
      have h1 := mem_dedupePeers _ _ p hp
      rcases List.mem_flatten.1 h1 with ⟨s, hs, hps3⟩
      rcases List.mem_map.1 hs with ⟨o, ho, rfl⟩
      exact ⟨o, ho, hps3⟩
    · intro o ho q hq
      have h1 : q ∈ (outcomes.map attemptPeers).flatten :=
        List.mem_flatten.2 ⟨attemptPeers o, List.mem_map.2 ⟨o, ho, rfl⟩, hq⟩
      rcases dedupePeers_covers _ [] q h1 with h2 | ⟨p, hp, hk⟩
      · simp at h2
      · exact ⟨p, hp, hk⟩

/-- C8 witness: two trackers, one failing and one succeeding with a
duplicated peer; the amended statement instantiated there. -/
theorem claimC8_witness :
    ((getPeers [Except.error "down",
        Except.ok [⟨strBytes "1.2.3.4", 80⟩, ⟨strBytes "1.2.3.4", 80⟩]]).isOk = false ↔
      ∀ o ∈ [Except.error "down",
        Except.ok [⟨strBytes "1.2.3.4", 80⟩, ⟨strBytes "1.2.3.4", 80⟩]],
        attemptPeers o = []) ∧
    (([⟨strBytes "1.2.3.4", 80⟩] : List PeerAddr).map peerKey).Nodup ∧
    (∀ p ∈ ([⟨strBytes "1.2.3.4", 80⟩] : List PeerAddr),
      ∃ o ∈ [Except.error "down",
        Except.ok [⟨strBytes "1.2.3.4", 80⟩, ⟨strBytes "1.2.3.4", 80⟩]],
        p ∈ attemptPeers o) ∧
    (∀ o ∈ [Except.error "down",
        Except.ok [⟨strBytes "1.2.3.4", 80⟩, ⟨strBytes "1.2.3.4", 80⟩]],
      ∀ q ∈ attemptPeers o, ∃ p ∈ ([⟨strBytes "1.2.3.4", 80⟩] : List PeerAddr),
        peerKey p = peerKey q) := by
  have h := claimC8_theorem [Except.error "down",
    Except.ok [⟨strBytes "1.2.3.4", 80⟩, ⟨strBytes "1.2.3.4", 80⟩]]
  have h2 := h.2 [⟨strBytes "1.2.3.4", 80⟩] (by decide)
  exact ⟨h.1, h2.1, h2.2.1, h2.2.2⟩

/-! ## Claim C9: no requests while choked -/

theorem requestCount_append_nonreq (l : List (List Nat)) (fr : List Nat)
    (h : isRequestFrame fr = false) :
    requestCount (l ++ [fr]) = requestCount l := by
  simp [requestCount, List.filter_append, h]

/-- C9: in every reachable state of a peer session, a step taken while
the peer has us choked (`am_choked = true`) writes no `request` frame to
the socket: `requestPiece` refuses outright when choked, and no other
step emits a request frame. -/
theorem claimC9_theorem : ∀ s t : PeerSt, PeerReachable s → PeerStep s t →
    s.choked = true → requestCount t.sent = requestCount s.sent := by
  intro s t hreach hstep hch
  cases hstep with
  | recvChoke => rfl
  | recvUnchoke => rfl
  | connect => rfl
  | disconnect => rfl
  | interested =>
      show requestCount (sendInterested s).sent = _
      by_cases hcon : s.connected = true
      · have hfr : isRequestFrame (createMessage 2 []) = false := by decide
        simp [sendInterested, sendData, hcon, requestCount_append_nonreq _ _ hfr]
      · simp [sendInterested, sendData, hcon]
  | keepAlive =>
      show requestCount (sendKeepAlive s).sent = _
      by_cases hcon : s.connected = true
      · have hfr : isRequestFrame (be32 0) = false := by decide
        simp [sendKeepAlive, sendData, hcon, requestCount_append_nonreq _ _ hfr]
      · simp [sendKeepAlive, sendData, hcon]
  | request idx len =>
      show requestCount (requestPiece s idx len).sent = _
      simp [requestPiece, hch]

/-- C9 witness: the fresh session is reachable and choked; a
`requestPiece` step there writes nothing. -/
theorem claimC9_witness :
    initPeerSt.choked = true ∧
    requestCount (requestPiece initPeerSt 0 40000).sent =
      requestCount initPeerSt.sent :=
  ⟨rfl, claimC9_theorem initPeerSt (requestPiece initPeerSt 0 40000)
    PeerReachable.init (PeerStep.request initPeerSt 0 40000) rfl⟩

end TClient
